import Mathlib

/-!
Verification of the Tcl select-list compressor (`compressor.py`).

Names are modelled as `List Char`; category ids as `List Char`.  The corpus
(`cats` in the script) is an association list from category id to the list of
names in input order.  All functions below are shallow embeddings of the
corresponding Python functions; Python `set`s are modelled by deduplicated
lists, where only membership matters downstream (emission always re-sorts).
-/

namespace TclComp

abbrev Name := List Char
abbrev CatId := List Char
abbrev Corpus := List (CatId × List Name)

/-- The hierarchy separators (`SEPS = {'.', '/'}`). -/
def isSep (c : Char) : Bool := c = '.' || c = '/'

/-- Helper for `sep_prefixes`: `acc` is the part of the name already scanned. -/
def sepPrefixesAux : List Char → List Char → List Name
  | _, [] => []
  | acc, c :: rest =>
    if isSep c then (acc ++ [c]) :: sepPrefixesAux (acc ++ [c]) rest
    else sepPrefixesAux (acc ++ [c]) rest

/-- `sep_prefixes(name)`: all prefixes of `name` ending exactly at a `'.'` or
`'/'`, shortest first. -/
def sep_prefixes (nm : Name) : List Name := sepPrefixesAux [] nm

/-- `TAIL_NUM_RE = ^(.*?)(\d+)(\D*)$` applied with `re.match`: split a name
into `(head, digits, suffix)` where `digits` is the last maximal run of
decimal digits and `suffix` the (possibly empty) trailing run of non-digits;
`none` when the name contains no digit. -/
def splitTailNum (nm : Name) : Option (Name × Name × Name) :=
  let rev := nm.reverse
  let sfx := rev.takeWhile (fun c => !c.isDigit)
  let rest := rev.dropWhile (fun c => !c.isDigit)
  let digs := rest.takeWhile (fun c => c.isDigit)
  let head := rest.dropWhile (fun c => c.isDigit)
  if digs.isEmpty then none
  else some (head.reverse, digs.reverse, sfx.reverse)

/-! ### fnmatch

`fnmatch.fnmatchcase` translates the pattern to a regex: `*` becomes `.*`,
`?` becomes `.`, `[...]` becomes a character class (`[!...]` negated, a `]`
directly after `[` or `[!` is literal, an unterminated `[` is a literal
bracket), and every other character is literal.  We implement the matcher
directly; a fuel argument keeps the recursion structural so that the kernel
can evaluate it. -/

/-- Scan for the closing `]` of a character class; returns the class body and
the remainder after the bracket. -/
def scanToRB : List Char → Option (List Char × List Char)
  | [] => none
  | c :: t =>
    if c = ']' then some ([], t)
    else (scanToRB t).map (fun p => (c :: p.1, p.2))

/-- Split `l` (the pattern after a `[`) into the class body and the rest,
following `fnmatch.translate`: a leading `!` and a `]` right after it are part
of the body. -/
def splitClass (l : List Char) : Option (List Char × List Char) :=
  match l with
  | '!' :: ']' :: rest => (scanToRB rest).map (fun p => ('!' :: ']' :: p.1, p.2))
  | '!' :: rest => (scanToRB rest).map (fun p => ('!' :: p.1, p.2))
  | ']' :: rest => (scanToRB rest).map (fun p => (']' :: p.1, p.2))
  | l => scanToRB l

/-- Membership of a character in a regex class body (ranges `a-b` included). -/
def inClass : List Char → Char → Bool
  | [], _ => false
  | a :: '-' :: b :: rest, c =>
    (decide (a ≤ c) && decide (c ≤ b)) || inClass rest c
  | a :: rest, c => (a = c) || inClass rest c

/-- Class matching including the `[!...]` negation. -/
def classMatch (stuff : List Char) (c : Char) : Bool :=
  match stuff with
  | '!' :: stuff2 => !(inClass stuff2 c)
  | _ => inClass stuff c

/-- Fuel-indexed glob matcher; `fnmatchL` supplies enough fuel. -/
def fnmatchFuel : Nat → List Char → List Char → Bool
  | 0, _, _ => false
  | fuel + 1, ps, s =>
    match ps with
    | [] => s.isEmpty
    | p :: pt =>
      if p = '*' then
        (fnmatchFuel fuel pt s ||
          match s with
          | [] => false
          | _ :: st => fnmatchFuel fuel ps st)
      else if p = '?' then
        (match s with
         | [] => false
         | _ :: st => fnmatchFuel fuel pt st)
      else if p = '[' then
        (match splitClass pt with
         | none =>
           (match s with
            | c :: st => c = '[' && fnmatchFuel fuel pt st
            | [] => false)
         | some (stuff, rest) =>
           (match s with
            | [] => false
            | c :: st => classMatch stuff c && fnmatchFuel fuel rest st))
      else
        (match s with
         | [] => false
         | c :: st => p = c && fnmatchFuel fuel pt st)

/-- `fnmatch.fnmatchcase(s, ps)`: does the glob pattern `ps` match the whole
string `s`. -/
def fnmatchL (ps s : List Char) : Bool :=
  fnmatchFuel (ps.length + s.length + 1) ps s

/-! ### Sorting

`sorted(..., key=len)` is a stable sort by length; `sorted(...)` on strings is
the lexicographic order on code points.  `List.insertionSort` is stable, so it
models Python's sort. -/

def LenLeP (a b : Name) : Prop := a.length ≤ b.length

instance : DecidableRel LenLeP := fun a b => Nat.decLe a.length b.length

instance : IsTotal Name LenLeP := ⟨fun a b => Nat.le_total a.length b.length⟩

instance : IsTrans Name LenLeP := ⟨fun _ _ _ h h' => Nat.le_trans h h'⟩

/-- `sorted(l, key=len)`. -/
def sortByLen (l : List Name) : List Name := l.insertionSort LenLeP

/-- Strict lexicographic comparison of char lists, Python's `<` on `str`. -/
def lexLt : List Char → List Char → Bool
  | [], [] => false
  | [], _ :: _ => true
  | _ :: _, [] => false
  | a :: as, b :: bs => if a < b then true else if a = b then lexLt as bs else false

def lexLe (x y : Name) : Bool := !(lexLt y x)

def LexLeP (x y : Name) : Prop := lexLe x y = true

instance : DecidableRel LexLeP := fun x y => instDecidableEqBool (lexLe x y) true

/-- `sorted(l)` on strings. -/
def sortLex (l : List Name) : List Name := l.insertionSort LexLeP

/-! ### Stage 1: unique hierarchy prefixes -/

/-- `cats[cat]["names"]` (empty when the category id is absent). -/
def lookupNames (cats : Corpus) (cat : CatId) : List Name :=
  ((cats.find? (fun e => e.1 == cat)).map Prod.snd).getD []

/-- `pref_to_cats[p]` of `build_sep_prefix_index`: the categories owning a
name with separator-prefix `p`, in corpus order. -/
def catsWithPref (cats : Corpus) (p : Name) : List CatId :=
  (cats.filter (fun e => e.2.any (fun nm => (sep_prefixes nm).contains p))).map Prod.fst

/-- The candidate unique prefix of one name: the shortest separator-prefix
whose index entry is the singleton `{cat}`. -/
def candPref (cats : Corpus) (cat : CatId) (nm : Name) : Option Name :=
  (sep_prefixes nm).find? (fun p => catsWithPref cats p == [cat])

/-- One step of the greedy keep loop: keep `p` unless it starts with an
already-kept prefix. -/
def keepStep (kept : List Name) (p : Name) : List Name :=
  if kept.any (fun k => k.isPrefixOf p) then kept else kept ++ [p]

def keepPrefixes (cands : List Name) : List Name := cands.foldl keepStep []

/-- `compute_unique_prefixes_for_category`: kept prefixes and covered names.
The Python `set(candidates)` is modelled by `dedup`; the stable length sort
models `sorted(..., key=len)`. -/
def compute_unique_prefixes_for_category (cats : Corpus) (cat : CatId)
    (names : List Name) : List Name × List Name :=
  let kept := keepPrefixes (sortByLen (names.filterMap (candPref cats cat)).dedup)
  (kept, names.dedup.filter (fun nm => kept.any (fun k => k.isPrefixOf nm)))

def keptOf (cats : Corpus) (cat : CatId) : List Name :=
  (compute_unique_prefixes_for_category cats cat (lookupNames cats cat)).1

def coveredU (cats : Corpus) (cat : CatId) : List Name :=
  (compute_unique_prefixes_for_category cats cat (lookupNames cats cat)).2

/-- `names_left = set(names) - covered_by_unique[cat]`. -/
def namesLeftOf (cats : Corpus) (cat : CatId) : List Name :=
  (lookupNames cats cat).dedup.filter
    (fun nm => !(keptOf cats cat).any (fun k => k.isPrefixOf nm))

/-! ### Stage 2: trailing-number merges -/

/-- `all_names_by_cat = {c: set(d["names"])}`. -/
def allNamesByCat (cats : Corpus) : Corpus := cats.map (fun e => (e.1, e.2.dedup))

/-- `build_trailing_number_index(all_names_by_cat)[key]` viewed per key:
the `(cat, name, digits)` triples of all names whose tail-number split has
head/suffix equal to `key`. -/
def build_trailing_number_index (byCat : Corpus) (key : Name × Name) :
    List (CatId × Name × Name) :=
  byCat.flatMap (fun e => e.2.filterMap (fun nm =>
    match splitTailNum nm with
    | some (h, d, s) => if (h, s) = key then some (e.1, nm, d) else none
    | none => none))

/-- `prefixes_of_numbers_set(nums)`: all leading pieces, of every length, of
the digit strings in `nums` (a Python set; only membership is used). -/
def prefixes_of_numbers_set (nums : List Name) : List Name :=
  nums.flatMap (fun n => (List.range n.length).map (fun i => n.take (i + 1)))

/-- The `while L <= len(d) and d[:L] in other_pref` loop: the shortest safe
digit piece `d[:L]`, or `none` when every length up to `len(d)` is forbidden. -/
def minSafeDp (d : Name) (forb : List Name) : Option Name :=
  ((List.range d.length).find? (fun i => !(forb.contains (d.take (i + 1))))).map
    (fun i => d.take (i + 1))

/-- The `(head, suffix)` keys of the category's own leftover names, in first
occurrence order. -/
def groupKeys (nleft : List Name) : List (Name × Name) :=
  (nleft.filterMap (fun nm => (splitTailNum nm).map (fun t => (t.1, t.2.2)))).dedup

/-- The contribution of one name to its `(head, suffix)` group: the
`(name, digits)` pair when the tail-number split lands on `key`. -/
def tailKeyPair (key : Name × Name) (nm : Name) : Option (Name × Name) :=
  match splitTailNum nm with
  | some (h, d, s) => if (h, s) = key then some (nm, d) else none
  | none => none

/-- The `(name, digits)` pairs of the category's leftovers in one group. -/
def ourGroup (nleft : List Name) (key : Name × Name) : List (Name × Name) :=
  nleft.filterMap (tailKeyPair key)

/-- `other_nums`: competitor digit strings for one `(head, suffix)` key. -/
def otherNums (byCat : Corpus) (cat : CatId) (key : Name × Name) : List Name :=
  (build_trailing_number_index byCat key).filterMap
    (fun t => if t.1 == cat then none else some t.2.2)

/-- `dprefix_to_names` as a flat `(dprefix, name)` list: each own digit string
is assigned its minimal safe piece, unmergeable names are skipped. -/
def dpAssign (forb : List Name) (our : List (Name × Name)) : List (Name × Name) :=
  our.filterMap (fun x => (minSafeDp x.2 forb).map (fun dp => (dp, x.1)))

/-- The names assigned to one digit piece. -/
def groupNames (assign : List (Name × Name)) (dp : Name) : List Name :=
  (assign.filter (fun y => y.1 == dp)).map (fun y => y.2)

/-- The forbidden set used for one key of one category. -/
def forbOf (byCat : Corpus) (cat : CatId) (key : Name × Name) : List Name :=
  prefixes_of_numbers_set (otherNums byCat cat key)

def assignOf (byCat : Corpus) (cat : CatId) (nleft : List Name)
    (key : Name × Name) : List (Name × Name) :=
  dpAssign (forbOf byCat cat key) (ourGroup nleft key)

/-- Patterns `head + dp + '*' + suffix` emitted for one key (groups of two or
more names only). -/
def keyPatterns (key : Name × Name) (assign : List (Name × Name)) : List Name :=
  ((assign.map (fun y => y.1)).dedup).filterMap (fun dp =>
    if 2 ≤ (groupNames assign dp).length then some (key.1 ++ dp ++ '*' :: key.2)
    else none)

/-- The names covered by the patterns of one key. -/
def keyCovered (_key : Name × Name) (assign : List (Name × Name)) : List Name :=
  ((assign.map (fun y => y.1)).dedup).flatMap (fun dp =>
    if 2 ≤ (groupNames assign dp).length then groupNames assign dp else [])

/-- `make_digit_merges_for_category`, pattern component. -/
def make_digit_merges_patterns (cat : CatId) (nleft : List Name)
    (byCat : Corpus) : List Name :=
  (groupKeys nleft).flatMap (fun key => keyPatterns key (assignOf byCat cat nleft key))

/-- `make_digit_merges_for_category`, covered-names component. -/
def make_digit_merges_covered (cat : CatId) (nleft : List Name)
    (byCat : Corpus) : List Name :=
  (groupKeys nleft).flatMap (fun key => keyCovered key (assignOf byCat cat nleft key))

/-- `digit_patterns_by_cat[cat]` as produced by the selector (before the
final safety check). -/
def dpattsSel (cats : Corpus) (cat : CatId) : List Name :=
  make_digit_merges_patterns cat (namesLeftOf cats cat) (allNamesByCat cats)

/-- `covered_by_digits[cat]`. -/
def dcovOf (cats : Corpus) (cat : CatId) : List Name :=
  make_digit_merges_covered cat (namesLeftOf cats cat) (allNamesByCat cats)

/-- `leftovers_by_cat[cat] = sorted(names_left - dcovered)`. -/
def leftoversOf (cats : Corpus) (cat : CatId) : List Name :=
  sortLex ((namesLeftOf cats cat).filter (fun nm => !(dcovOf cats cat).contains nm))

/-- `cats_hit` of the final safety check: the categories having a name that
glob-matches `patt`. -/
def catsHit (byCat : Corpus) (patt : Name) : List CatId :=
  (byCat.filter (fun e => e.2.any (fun nm => fnmatchL patt nm))).map Prod.fst

/-- Step 5 of `main`: keep only the digit patterns whose hit set is exactly
the owning category. -/
def finalPatts (cats : Corpus) (cat : CatId) : List Name :=
  (dpattsSel cats cat).filter
    (fun patt => catsHit (allNamesByCat cats) patt == [cat])

/-- The per-category body emitted by `write_output`, as the ordered list of
the pattern/name strings on the `select` lines: kept prefixes stably sorted
by length (each with `*` appended), then the digit patterns sorted lexically,
then the leftovers sorted lexically.  `ups` and `dps` stand for enumerations
of the corresponding Python sets. -/
def categoryLines (ups dps los : List Name) : List Name :=
  (sortByLen ups).map (fun p => p ++ ['*']) ++ sortLex dps.dedup ++ sortLex los

/-- The category's entry set (`set(cats[cat]["names"])`). -/
def entriesD (cats : Corpus) (cat : CatId) : List Name :=
  (lookupNames cats cat).dedup

/-- `all_names`: every name of every category. -/
def allNamesList (cats : Corpus) : List Name := cats.flatMap (fun e => e.2)

/-- A character that `fnmatch` treats literally. -/
def metaFreeChar (c : Char) : Bool := !(c = '*' || c = '?' || c = '[')

/-- Names without glob metacharacters. -/
def MetaFree (l : List Char) : Prop := ∀ c ∈ l, metaFreeChar c = true

instance (l : List Char) : Decidable (MetaFree l) := List.decidableBAll _ l

/-! ### The input parser (`parse_file`) -/

/-- Python `\s` on ASCII. -/
def pySpace (c : Char) : Bool :=
  c = ' ' || c = '\t' || c = '\n' || c = '\r' || c = '\x0b' || c = '\x0c'

/-- Strip an exact literal from the front. -/
def stripLit : List Char → List Char → Option (List Char)
  | [], s => some s
  | _ :: _, [] => none
  | c :: cs, d :: ds => if c = d then stripLit cs ds else none

/-- `\s+`: at least one whitespace character, consumed greedily. -/
def spaces1 (s : List Char) : Option (List Char) :=
  match s with
  | c :: r => if pySpace c then some (r.dropWhile pySpace) else none
  | [] => none

/-- `SEL_RE.match(line)`: returns `(name, highlight digits)` for a line of
the form `\s*select\s+-name\s+"([^"]+)"\s+-type\s+Inst\s+-highlight\s+(\d+)\s*`. -/
def matchSel (line : List Char) : Option (Name × List Char) := do
  let s1 ← stripLit "select".toList (line.dropWhile pySpace)
  let s2 ← spaces1 s1
  let s3 ← stripLit "-name".toList s2
  let s4 ← spaces1 s3
  let s5 ← stripLit ['"'] s4
  let nm := s5.takeWhile (fun c => c ≠ '"')
  if nm.isEmpty then none else do
  let s6 ← stripLit ['"'] (s5.dropWhile (fun c => c ≠ '"'))
  let s7 ← spaces1 s6
  let s8 ← stripLit "-type".toList s7
  let s9 ← spaces1 s8
  let s10 ← stripLit "Inst".toList s9
  let s11 ← spaces1 s10
  let s12 ← stripLit "-highlight".toList s11
  let s13 ← spaces1 s12
  let ds := s13.takeWhile Char.isDigit
  if ds.isEmpty then none else do
  let s14 := (s13.dropWhile Char.isDigit).dropWhile pySpace
  if s14.isEmpty then some (nm, ds) else none

/-- Python `\w` on ASCII. -/
def isWordChar (c : Char) : Bool := c.isAlphanum || c = '_'

/-- Try `color\s+(\d+)` at this position; `prevW` says whether the preceding
character is a word character (`\b` fails then). -/
def colorAt (prevW : Bool) (l : List Char) : Option (List Char) :=
  if prevW then none
  else
    match stripLit "color".toList l with
    | none => none
    | some r =>
      match spaces1 r with
      | none => none
      | some r2 =>
        let ds := r2.takeWhile Char.isDigit
        if ds.isEmpty then none else some ds

/-- `.*\bcolor\s+(\d+)` with a greedy `.*`: rightmost occurrence wins. -/
def searchColor : Bool → List Char → Option (List Char)
  | _, [] => none
  | prevW, c :: rest =>
    match searchColor (isWordChar c) rest with
    | some ds => some ds
    | none => colorAt prevW (c :: rest)

/-- `CAT_RE.match(line)`: `\s*#\s*Category\s+(\d+).*\bcolor\s+(\d+)`, giving
`(category id digits, color digits)`. -/
def matchCat (line : List Char) : Option (CatId × List Char) := do
  let s1 ← stripLit ['#'] (line.dropWhile pySpace)
  let s2 ← stripLit "Category".toList (s1.dropWhile pySpace)
  let s3 ← spaces1 s2
  let cid := s3.takeWhile Char.isDigit
  if cid.isEmpty then none else do
  -- the character before the `.*` is the last id digit, a word character
  match searchColor true (s3.dropWhile Char.isDigit) with
  | some ds => some (cid, ds)
  | none => none

structure PCat where
  highlight : List Char
  names : List Name
deriving DecidableEq

structure PState where
  order : List CatId
  cats : List (CatId × PCat)
  curCat : Option CatId
  headerLines : List (List Char)
deriving DecidableEq

/-- Append a parsed name to the current category. -/
def updNames (cs : List (CatId × PCat)) (c : CatId) (nm : Name) : List (CatId × PCat) :=
  cs.map (fun e => if e.1 = c then (e.1, ⟨e.2.highlight, e.2.names ++ [nm]⟩) else e)

/-- `line.rstrip('\n')`. -/
def stripNl (l : List Char) : List Char :=
  (l.reverse.dropWhile (fun c => c = '\n')).reverse

/-- One iteration of the `parse_file` loop. -/
def parse_line (st : PState) (line : List Char) : PState :=
  match matchCat line with
  | some (cid, hl) =>
    if (st.cats.find? (fun e => e.1 == cid)).isSome then
      { st with curCat := some cid }
    else
      { st with
        order := st.order ++ [cid]
        cats := st.cats ++ [(cid, ⟨hl, []⟩)]
        curCat := some cid }
  | none =>
    match matchSel line, st.curCat with
    | some (nm, _), some c => { st with cats := updNames st.cats c nm }
    | _, _ =>
      if st.order.isEmpty &&
          (((line.dropWhile pySpace).head?).isEqSome '#' || line.all pySpace) then
        { st with headerLines := st.headerLines ++ [stripNl line] }
      else st

/-- The general shape of a selection line: arbitrary whitespace runs
`w0..w7`, a quoted name `nmq`, a type tag `T` and a highlight number `n`.
With `T = Inst` this is exactly the form `SEL_RE` accepts. -/
def selLine (w0 w1 w2 w3 w4 w5 w6 w7 nmq T n : List Char) : List Char :=
  w0 ++ ("select".toList ++ (w1 ++ ("-name".toList ++ (w2 ++ ('"' ::
    (nmq ++ ('"' :: (w3 ++ ("-type".toList ++ (w4 ++ (T ++ (w5 ++
      ("-highlight".toList ++ (w6 ++ (n ++ w7)))))))))))))))

/-! ### Concrete corpora used to settle individual claims -/

/-- Two categories whose names carry a `[`: the kept prefix of category 1 is
`a[x]/`, but the emitted glob `a[x]/*` has a character class. -/
def corpusBracket : Corpus := [("1".toList, ["a[x]/m".toList]), ("2".toList, ["ax/n".toList])]

/-- A discarded digit pattern: category 1 gets `x1*`, which also matches
category 2's `x1y`, so the final check drops it. -/
def corpusDiscard : Corpus := [("1".toList, ["x10".toList, "x11".toList]), ("2".toList, ["x1y".toList])]

/-- Category 1's single name is covered by the unique prefix `p/`. -/
def corpusCovered : Corpus := [("1".toList, ["p/a1".toList]), ("2".toList, ["q/b2".toList])]

/-- Names whose digit run is followed by a non-digit tail. -/
def corpusTail : Corpus := [("1".toList, ["r10a".toList, "r11a".toList])]

/-- Two kept prefixes of equal length in one category. -/
def corpusTie : Corpus := [("1".toList, ["a/x".toList, "b/y".toList])]

/-- No element of the list is a proper prefix (or extension) of another. -/
def PrefAntichain (l : List Name) : Prop :=
  ∀ p ∈ l, ∀ q ∈ l, p ≠ q → ¬ p <+: q

/-! ## Lemmas about the glob matcher -/

theorem scanToRB_length {l body rest : List Char}
    (h : scanToRB l = some (body, rest)) : rest.length < l.length := by
  induction l generalizing body rest with
  | nil => simp [scanToRB] at h
  | cons c t ih =>
    by_cases hc : c = ']'
    · simp [scanToRB, hc] at h
      obtain ⟨-, rfl⟩ := h
      simp
    · simp only [scanToRB, if_neg hc, Option.map_eq_some'] at h
      obtain ⟨⟨b', r'⟩, hscan, heq⟩ := h
      obtain ⟨-, rfl⟩ := Prod.mk.injEq .. ▸ heq
      exact Nat.lt_trans (ih hscan) (by simp)

theorem splitClass_length {l body rest : List Char}
    (h : splitClass l = some (body, rest)) : rest.length < l.length := by
  unfold splitClass at h
  split at h <;>
    first
    | exact scanToRB_length h
    | · simp only [Option.map_eq_some'] at h
        obtain ⟨⟨b', r'⟩, hscan, heq⟩ := h
        obtain ⟨-, rfl⟩ := Prod.mk.injEq .. ▸ heq
        have := scanToRB_length hscan
        simp only [List.length_cons]
        omega

theorem fnmatchFuel_congr :
    ∀ f g ps s, ps.length + s.length < f → ps.length + s.length < g →
      fnmatchFuel f ps s = fnmatchFuel g ps s := by
  intro f
  induction f using Nat.strong_induction_on with
  | _ f ih =>
    intro g ps s hf hg
    match f, hf with
    | f' + 1, hf =>
    match g, hg with
    | g' + 1, hg =>
    have hf' : ps.length + s.length < f' + 1 := hf
    have hg' : ps.length + s.length < g' + 1 := hg
    cases ps with
    | nil => simp [fnmatchFuel]
    | cons p pt =>
      by_cases hstar : p = '*'
      · subst hstar
        have h1 : fnmatchFuel f' pt s = fnmatchFuel g' pt s := by
          refine ih f' (Nat.lt_succ_self _) g' pt s ?_ ?_ <;>
            (simp only [List.length_cons] at hf' hg'; omega)
        cases s with
        | nil => simp [fnmatchFuel, h1]
        | cons c st =>
          have h2 : fnmatchFuel f' ('*' :: pt) st = fnmatchFuel g' ('*' :: pt) st := by
            refine ih f' (Nat.lt_succ_self _) g' _ st ?_ ?_ <;>
              (simp only [List.length_cons] at hf' hg' ⊢; omega)
          simp [fnmatchFuel, h1, h2]
      · by_cases hq : p = '?'
        · subst hq
          cases s with
          | nil => simp [fnmatchFuel]
          | cons c st =>
            have h1 : fnmatchFuel f' pt st = fnmatchFuel g' pt st := by
              refine ih f' (Nat.lt_succ_self _) g' pt st ?_ ?_ <;>
                (simp only [List.length_cons] at hf' hg'; omega)
            simp [fnmatchFuel, h1]
        · by_cases hb : p = '['
          · subst hb
            cases hsc : splitClass pt with
            | none =>
              cases s with
              | nil => simp [fnmatchFuel, hsc]
              | cons c st =>
                have h1 : fnmatchFuel f' pt st = fnmatchFuel g' pt st := by
                  refine ih f' (Nat.lt_succ_self _) g' pt st ?_ ?_ <;>
                    (simp only [List.length_cons] at hf' hg'; omega)
                simp [fnmatchFuel, hsc, h1]
            | some br =>
              obtain ⟨body, rest⟩ := br
              cases s with
              | nil => simp [fnmatchFuel, hsc]
              | cons c st =>
                have hr := splitClass_length hsc
                have h1 : fnmatchFuel f' rest st = fnmatchFuel g' rest st := by
                  refine ih f' (Nat.lt_succ_self _) g' rest st ?_ ?_ <;>
                    (simp only [List.length_cons] at hf' hg'; omega)
                simp [fnmatchFuel, hsc, h1]
          · cases s with
            | nil => simp [fnmatchFuel, hstar, hq, hb]
            | cons c st =>
              have h1 : fnmatchFuel f' pt st = fnmatchFuel g' pt st := by
                refine ih f' (Nat.lt_succ_self _) g' pt st ?_ ?_ <;>
                  (simp only [List.length_cons] at hf' hg'; omega)
              simp [fnmatchFuel, hstar, hq, hb, h1]

theorem fnmatchFuel_eq_fnmatchL {f : Nat} {ps s : List Char}
    (h : ps.length + s.length < f) : fnmatchFuel f ps s = fnmatchL ps s :=
  fnmatchFuel_congr f (ps.length + s.length + 1) ps s h (Nat.lt_succ_self _)

theorem fnmatchL_nil (s : List Char) : fnmatchL [] s = s.isEmpty := rfl

theorem fnmatchFuel_succ (fuel : Nat) (p : Char) (pt s : List Char) :
    fnmatchFuel (fuel + 1) (p :: pt) s =
      (if p = '*' then
        (fnmatchFuel fuel pt s ||
          match s with
          | [] => false
          | _ :: st => fnmatchFuel fuel (p :: pt) st)
      else if p = '?' then
        (match s with
         | [] => false
         | _ :: st => fnmatchFuel fuel pt st)
      else if p = '[' then
        (match splitClass pt with
         | none =>
           (match s with
            | c :: st => c = '[' && fnmatchFuel fuel pt st
            | [] => false)
         | some (stuff, rest) =>
           (match s with
            | [] => false
            | c :: st => classMatch stuff c && fnmatchFuel fuel rest st))
      else
        (match s with
         | [] => false
         | c :: st => p = c && fnmatchFuel fuel pt st)) := rfl

theorem fnmatchL_star_nil (pt : List Char) : fnmatchL ('*' :: pt) [] = fnmatchL pt [] := by
  have h : fnmatchL ('*' :: pt) [] =
      (fnmatchFuel (('*' :: pt).length + ([] : List Char).length) pt [] || false) := rfl
  rw [h, Bool.or_false, fnmatchFuel_eq_fnmatchL (by simp)]

theorem fnmatchL_star_cons (pt : List Char) (c : Char) (st : List Char) :
    fnmatchL ('*' :: pt) (c :: st) =
      (fnmatchL pt (c :: st) || fnmatchL ('*' :: pt) st) := by
  have h : fnmatchL ('*' :: pt) (c :: st) =
      (fnmatchFuel (('*' :: pt).length + (c :: st).length) pt (c :: st) ||
        fnmatchFuel (('*' :: pt).length + (c :: st).length) ('*' :: pt) st) := rfl
  rw [h, fnmatchFuel_eq_fnmatchL (by simp), fnmatchFuel_eq_fnmatchL (by simp)]

theorem fnmatchL_lit_nil {p : Char} (h1 : p ≠ '*') (h2 : p ≠ '?') (h3 : p ≠ '[')
    (pt : List Char) : fnmatchL (p :: pt) [] = false := by
  show fnmatchFuel ((p :: pt).length + ([] : List Char).length + 1) (p :: pt) [] = false
  rw [fnmatchFuel_succ, if_neg h1, if_neg h2, if_neg h3]

theorem fnmatchL_lit_cons {p : Char} (h1 : p ≠ '*') (h2 : p ≠ '?') (h3 : p ≠ '[')
    (pt : List Char) (c : Char) (st : List Char) :
    fnmatchL (p :: pt) (c :: st) = (decide (p = c) && fnmatchL pt st) := by
  show fnmatchFuel ((p :: pt).length + (c :: st).length + 1) (p :: pt) (c :: st) = _
  rw [fnmatchFuel_succ, if_neg h1, if_neg h2, if_neg h3]
  show (decide (p = c) && fnmatchFuel ((p :: pt).length + (c :: st).length) pt st) = _
  rw [fnmatchFuel_eq_fnmatchL (by simp; omega)]

theorem metaFreeChar_spec {c : Char} (h : metaFreeChar c = true) :
    c ≠ '*' ∧ c ≠ '?' ∧ c ≠ '[' := by
  simp [metaFreeChar] at h
  exact ⟨h.1.1, h.1.2, h.2⟩

theorem fnmatchL_star_end (s : List Char) : fnmatchL ['*'] s = true := by
  induction s with
  | nil => rw [fnmatchL_star_nil]; rfl
  | cons c st ih => rw [fnmatchL_star_cons, ih, Bool.or_true]

/-- Matching a pattern that starts with a run of literal characters forces the
string to start with exactly that run. -/
theorem fnmatchL_append_lit (a : List Char) (ha : MetaFree a) (ps s : List Char) :
    fnmatchL (a ++ ps) s = true ↔ ∃ s', s = a ++ s' ∧ fnmatchL ps s' = true := by
  induction a generalizing s with
  | nil => simp
  | cons c a' ih =>
    obtain ⟨h1, h2, h3⟩ := metaFreeChar_spec (ha c (List.mem_cons_self c a'))
    have ha' : MetaFree a' := fun d hd => ha d (List.mem_cons_of_mem c hd)
    cases s with
    | nil =>
      rw [List.cons_append, fnmatchL_lit_nil h1 h2 h3]
      simp
    | cons d st =>
      rw [List.cons_append, fnmatchL_lit_cons h1 h2 h3]
      simp only [Bool.and_eq_true, decide_eq_true_eq, ih ha' st]
      constructor
      · rintro ⟨rfl, s', rfl, hm⟩
        exact ⟨s', rfl, hm⟩
      · rintro ⟨s', heq, hm⟩
        rw [List.cons_append] at heq
        injection heq with hcd hst
        exact ⟨hcd.symm, s', hst, hm⟩

/-- A leading `*` absorbs any run of characters before the rest matches. -/
theorem fnmatchL_star_prepend {ps s : List Char} (m : List Char)
    (h : fnmatchL ps s = true) : fnmatchL ('*' :: ps) (m ++ s) = true := by
  induction m with
  | nil =>
    cases s with
    | nil => rw [List.nil_append, fnmatchL_star_nil]; exact h
    | cons c st => rw [List.nil_append, fnmatchL_star_cons, h, Bool.true_or]
  | cons c m' ih => rw [List.cons_append, fnmatchL_star_cons, ih, Bool.or_true]

/-- A metacharacter-free string matches itself. -/
theorem fnmatchL_refl {b : List Char} (hb : MetaFree b) : fnmatchL b b = true := by
  have := (fnmatchL_append_lit b hb [] b).mpr
  simpa using this ⟨[], by simp, rfl⟩

/-- `p*` (for metacharacter-free `p`) matches exactly the strings with literal
head `p`. -/
theorem fnmatchL_pref_star {p : List Char} (hp : MetaFree p) (nm : List Char) :
    fnmatchL (p ++ ['*']) nm = true ↔ p <+: nm := by
  rw [fnmatchL_append_lit p hp]
  constructor
  · rintro ⟨s', rfl, -⟩
    exact ⟨s', rfl⟩
  · rintro ⟨t, rfl⟩
    exact ⟨t, rfl, fnmatchL_star_end t⟩

/-- `a*b` (for metacharacter-free `a`, `b`) matches `a ++ m ++ b`. -/
theorem fnmatchL_mid_star {a b : List Char} (ha : MetaFree a) (hb : MetaFree b)
    (m : List Char) : fnmatchL (a ++ '*' :: b) (a ++ (m ++ b)) = true := by
  rw [fnmatchL_append_lit a ha]
  exact ⟨m ++ b, rfl, fnmatchL_star_prepend m (fnmatchL_refl hb)⟩

/-! ## Lemmas about separator prefixes -/

theorem sepPrefixesAux_mem (l : List Char) :
    ∀ (acc p : List Char), p ∈ sepPrefixesAux acc l ↔
      ∃ q c rest, l = q ++ c :: rest ∧ isSep c = true ∧ p = acc ++ q ++ [c] := by
  induction l with
  | nil =>
    intro acc p
    simp [sepPrefixesAux]
  | cons d t ih =>
    intro acc p
    by_cases hd : isSep d = true
    · simp only [sepPrefixesAux, if_pos hd, List.mem_cons, ih]
      constructor
      · rintro (rfl | ⟨q, c, rest, rfl, hc, rfl⟩)
        · exact ⟨[], d, t, rfl, hd, by simp⟩
        · exact ⟨d :: q, c, rest, rfl, hc, by simp⟩
      · rintro ⟨q, c, rest, heq, hc, rfl⟩
        cases q with
        | nil =>
          injection heq with h1 h2
          subst h1; subst h2
          left; simp
        | cons q0 q' =>
          injection heq with h1 h2
          subst h1; subst h2
          right
          exact ⟨q', c, rest, rfl, hc, by simp⟩
    · simp only [sepPrefixesAux, if_neg hd, ih]
      constructor
      · rintro ⟨q, c, rest, rfl, hc, rfl⟩
        exact ⟨d :: q, c, rest, rfl, hc, by simp⟩
      · rintro ⟨q, c, rest, heq, hc, rfl⟩
        cases q with
        | nil =>
          injection heq with h1 h2
          subst h1
          exact absurd hc hd
        | cons q0 q' =>
          injection heq with h1 h2
          subst h1; subst h2
          exact ⟨q', c, rest, rfl, hc, by simp⟩

theorem sep_prefixes_mem {nm p : List Char} :
    p ∈ sep_prefixes nm ↔
      ∃ q c rest, nm = q ++ c :: rest ∧ isSep c = true ∧ p = q ++ [c] := by
  rw [sep_prefixes, sepPrefixesAux_mem]
  simp

theorem sep_prefixes_isPre {nm p : List Char} (h : p ∈ sep_prefixes nm) : p <+: nm := by
  obtain ⟨q, c, rest, rfl, -, rfl⟩ := sep_prefixes_mem.mp h
  exact ⟨rest, by simp⟩

/-- A separator prefix of one name is a separator prefix of every name that
starts with it. -/
theorem sep_prefixes_transfer {nm0 nm p : List Char}
    (h : p ∈ sep_prefixes nm0) (hpre : p <+: nm) : p ∈ sep_prefixes nm := by
  obtain ⟨q, c, rest, -, hc, rfl⟩ := sep_prefixes_mem.mp h
  obtain ⟨t, rfl⟩ := hpre
  exact sep_prefixes_mem.mpr ⟨q, c, t, by simp, hc, rfl⟩

/-! ## Lemmas about the greedy keep loop -/

theorem foldl_keepStep_mem :
    ∀ (cands acc : List Name) (p : Name), p ∈ cands.foldl keepStep acc →
      p ∈ acc ∨ p ∈ cands := by
  intro cands
  induction cands with
  | nil => intro acc p h; exact Or.inl h
  | cons c rest ih =>
    intro acc p h
    rcases ih (keepStep acc c) p h with h' | h'
    · unfold keepStep at h'
      split at h'
      · exact Or.inl h'
      · rcases List.mem_append.mp h' with h'' | h''
        · exact Or.inl h''
        · simp at h''
          subst h''
          exact Or.inr (List.mem_cons_self ..)
    · exact Or.inr (List.mem_cons_of_mem _ h')

theorem keepPrefixes_subset {cands : List Name} {p : Name}
    (h : p ∈ keepPrefixes cands) : p ∈ cands := by
  rcases foldl_keepStep_mem cands [] p h with h' | h'
  · simp at h'
  · exact h'

theorem keep_antichain_aux :
    ∀ (cands acc : List Name),
      PrefAntichain acc →
      (∀ k ∈ acc, ∀ x ∈ cands, k.length ≤ x.length) →
      List.Sorted LenLeP cands →
      (acc ++ cands).Nodup →
      PrefAntichain (cands.foldl keepStep acc) := by
  intro cands
  induction cands with
  | nil => intro acc hac _ _ _; exact hac
  | cons c rest ih =>
    intro acc hac hlen hsort hnd
    simp only [List.foldl_cons]
    by_cases hkeep : acc.any (fun k => k.isPrefixOf c) = true
    · rw [keepStep, if_pos hkeep]
      refine ih acc hac ?_ hsort.of_cons ?_
      · intro k hk x hx
        exact hlen k hk x (List.mem_cons_of_mem _ hx)
      · exact List.Nodup.sublist ((List.sublist_cons_self c rest).append_left acc) hnd
    · rw [keepStep, if_neg hkeep]
      have hnotpre : ∀ k ∈ acc, ¬ k <+: c := by
        intro k hk hkc
        exact hkeep (List.any_eq_true.mpr ⟨k, hk, List.isPrefixOf_iff_prefix.mpr hkc⟩)
      have hdisj : List.Disjoint acc (c :: rest) := List.disjoint_of_nodup_append hnd
      have hac' : PrefAntichain (acc ++ [c]) := by
        intro p hp q hq hne hpq
        rcases List.mem_append.mp hp with hpa | hpc
        · rcases List.mem_append.mp hq with hqa | hqc
          · exact hac p hpa q hqa hne hpq
          · simp at hqc
            subst hqc
            exact hnotpre p hpa hpq
        · simp at hpc
          subst hpc
          rcases List.mem_append.mp hq with hqa | hqc
          · have hlen' : q.length ≤ p.length := hlen q hqa p (List.mem_cons_self ..)
            exact hne (hpq.eq_of_length (Nat.le_antisymm hpq.length_le hlen'))
          · simp at hqc
            exact hne hqc.symm
      refine ih (acc ++ [c]) hac' ?_ hsort.of_cons ?_
      · intro k hk x hx
        rcases List.mem_append.mp hk with hka | hkc
        · exact hlen k hka x (List.mem_cons_of_mem _ hx)
        · simp at hkc
          subst hkc
          exact List.rel_of_sorted_cons hsort x hx
      · rw [List.append_assoc]
        simpa using hnd

theorem keepPrefixes_antichain {cands : List Name}
    (hsort : List.Sorted LenLeP cands) (hnd : cands.Nodup) :
    PrefAntichain (keepPrefixes cands) := by
  refine keep_antichain_aux cands [] ?_ ?_ hsort (by simpa using hnd)
  · intro p hp; simp at hp
  · intro k hk; simp at hk

/-! ## The find?-based while loop of the digit-piece search -/

theorem find?_eq_some_split {α} {p : α → Bool} :
    ∀ {l : List α} {a : α}, l.find? p = some a →
      ∃ l₁ l₂, l = l₁ ++ a :: l₂ ∧ p a = true ∧ ∀ x ∈ l₁, p x = false := by
  intro l
  induction l with
  | nil => intro a h; simp [List.find?] at h
  | cons b t ih =>
    intro a h
    by_cases hb : p b = true
    · rw [List.find?_cons_of_pos _ hb] at h
      injection h with h
      subst h
      exact ⟨[], t, rfl, hb, by simp⟩
    · rw [List.find?_cons_of_neg _ (by simpa using hb)] at h
      obtain ⟨l₁, l₂, rfl, hpa, hall⟩ := ih h
      refine ⟨b :: l₁, l₂, rfl, hpa, ?_⟩
      intro x hx
      rcases List.mem_cons.mp hx with rfl | hx'
      · simpa using hb
      · exact hall x hx'

theorem find?_range_some {n : Nat} {p : Nat → Bool} {i : Nat}
    (h : (List.range n).find? p = some i) :
    i < n ∧ p i = true ∧ ∀ j < i, p j = false := by
  obtain ⟨l₁, l₂, heq, hpi, hall⟩ := find?_eq_some_split h
  have hi : i ∈ List.range n := by rw [heq]; simp
  have hin : i < n := List.mem_range.mp hi
  have hl1 : l₁.length < n := by
    have := congrArg List.length heq
    simp at this
    omega
  have hidx : i = l₁.length := by
    have hlt : l₁.length < (List.range n).length := by simpa using hl1
    have h1 : (List.range n)[l₁.length] = l₁.length := List.getElem_range _ hlt
    have h2 : (List.range n)[l₁.length] = i := by
      rw [List.getElem_of_eq heq]
      rw [List.getElem_append_right (Nat.le_refl _)]
      simp
    omega
  refine ⟨hin, hpi, ?_⟩
  intro j hj
  have hl1r : l₁ = List.range l₁.length := by
    have ht : List.take l₁.length (List.range n) = l₁ := by
      rw [heq]; exact List.take_left _ _
    rw [List.take_range] at ht
    have hmin : min l₁.length n = l₁.length := by omega
    rw [hmin] at ht
    exact ht.symm
  apply hall
  rw [hl1r, List.mem_range]
  omega

theorem contains_iff_mem' {l : List Name} {a : Name} : l.contains a = true ↔ a ∈ l :=
  List.elem_iff

theorem minSafeDp_none_iff {d : Name} {forb : List Name} :
    minSafeDp d forb = none ↔ ∀ L, 1 ≤ L → L ≤ d.length → d.take L ∈ forb := by
  unfold minSafeDp
  rw [Option.map_eq_none', List.find?_eq_none]
  constructor
  · intro hf L h1 h2
    have := hf (L - 1) (List.mem_range.mpr (by omega))
    have hL : L - 1 + 1 = L := by omega
    rw [hL] at this
    simpa [contains_iff_mem'] using this
  · intro hf i hi
    have := hf (i + 1) (by omega) (by simpa using List.mem_range.mp hi)
    simp [contains_iff_mem', this]

theorem minSafeDp_some {d : Name} {forb : List Name} {dp : Name}
    (h : minSafeDp d forb = some dp) :
    ∃ L, 1 ≤ L ∧ L ≤ d.length ∧ dp = d.take L ∧ d.take L ∉ forb ∧
      ∀ K, 1 ≤ K → K < L → d.take K ∈ forb := by
  unfold minSafeDp at h
  rw [Option.map_eq_some'] at h
  obtain ⟨i, hfind, rfl⟩ := h
  obtain ⟨hin, hpi, hmin⟩ := find?_range_some hfind
  refine ⟨i + 1, by omega, by omega, rfl, ?_, ?_⟩
  · simpa [contains_iff_mem'] using hpi
  · intro K h1 h2
    have := hmin (K - 1) (by omega)
    have hK : K - 1 + 1 = K := by omega
    rw [hK] at this
    simpa [contains_iff_mem'] using this

/-! ## The tail-number split -/

theorem dropWhile_head_false {α} {p : α → Bool} {l : List α} {c : α} {t : List α}
    (h : l.dropWhile p = c :: t) : p c = false := by
  have h2 := List.head_dropWhile_not p l (by simp [h])
  simp only [h, List.head_cons] at h2
  exact h2

theorem splitTailNum_none_iff {nm : Name} :
    splitTailNum nm = none ↔ ∀ c ∈ nm, c.isDigit = false := by
  unfold splitTailNum
  simp only []
  constructor
  · intro h c hc
    split at h
    · next hemp =>
      have hrest : nm.reverse.dropWhile (fun c => !c.isDigit) = [] := by
        cases hr : nm.reverse.dropWhile (fun c => !c.isDigit) with
        | nil => rfl
        | cons a t =>
          have ha := dropWhile_head_false hr
          simp only [Bool.not_eq_false'] at ha
          have hte : (List.takeWhile (fun c => c.isDigit) (a :: t)).isEmpty = true :=
            hr ▸ hemp
          rw [List.takeWhile_cons] at hte
          simp [ha] at hte
      have hall := List.dropWhile_eq_nil_iff.mp hrest
      have := hall c (by simpa using hc)
      simpa using this
    · simp at h
  · intro hall
    have hrest : nm.reverse.dropWhile (fun c => !c.isDigit) = [] := by
      rw [List.dropWhile_eq_nil_iff]
      intro x hx
      simp [hall x (by simpa using hx)]
    rw [hrest]
    simp

theorem splitTailNum_some {nm h d s : Name} (heq : splitTailNum nm = some (h, d, s)) :
    nm = h ++ d ++ s ∧ d ≠ [] ∧ (∀ c ∈ d, c.isDigit = true) ∧
      (∀ c ∈ s, c.isDigit = false) ∧
      (∀ c, h.getLast? = some c → c.isDigit = false) := by
  unfold splitTailNum at heq
  simp only [] at heq
  split at heq
  · simp at heq
  · next hemp =>
    injection heq with heq
    injection heq with e1 e23
    injection e23 with e2 e3
    subst e1; subst e2; subst e3
    set rev := nm.reverse with hrev
    set sfx := rev.takeWhile (fun c => !c.isDigit) with hsfx
    set rest := rev.dropWhile (fun c => !c.isDigit) with hrest
    set digs := rest.takeWhile (fun c => c.isDigit) with hdigs
    set hd2 := rest.dropWhile (fun c => c.isDigit) with hhd2
    have hnm : nm = hd2.reverse ++ digs.reverse ++ sfx.reverse := by
      have e1 : sfx ++ rest = rev := List.takeWhile_append_dropWhile ..
      have e2 : digs ++ hd2 = rest := List.takeWhile_append_dropWhile ..
      have : nm = rev.reverse := by rw [hrev, List.reverse_reverse]
      rw [this, ← e1, ← e2]
      simp
    refine ⟨hnm, ?_, ?_, ?_, ?_⟩
    · intro hcon
      have hdnil : digs = [] := by simpa using congrArg List.reverse hcon
      rw [hdnil] at hemp
      simp at hemp
    · intro c hc
      exact List.mem_takeWhile_imp (by simpa using hc)
    · intro c hc
      have hmem : c ∈ List.takeWhile (fun c => !c.isDigit) rev := by simpa using hc
      have := List.mem_takeWhile_imp hmem
      simpa using this
    · intro c hc
      rw [List.getLast?_reverse] at hc
      cases hh : hd2 with
      | nil => rw [hh] at hc; simp at hc
      | cons a t =>
        rw [hh] at hc
        simp only [List.head?_cons, Option.some.injEq] at hc
        subst hc
        have := dropWhile_head_false hh
        simpa using this

/-! ## Membership characterizations of the numeric-merge machinery -/

theorem prefixes_of_numbers_set_mem {nums : List Name} {p : Name} :
    p ∈ prefixes_of_numbers_set nums ↔ p ≠ [] ∧ ∃ n ∈ nums, p <+: n := by
  unfold prefixes_of_numbers_set
  rw [List.mem_flatMap]
  constructor
  · rintro ⟨n, hn, hp⟩
    rw [List.mem_map] at hp
    obtain ⟨i, hi, rfl⟩ := hp
    rw [List.mem_range] at hi
    refine ⟨?_, n, hn, List.take_prefix _ _⟩
    intro hnil
    rw [List.take_eq_nil_iff] at hnil
    rcases hnil with h' | h'
    · exact absurd h' (by omega)
    · rw [h'] at hi; simp at hi
  · rintro ⟨hne, n, hn, hpre⟩
    refine ⟨n, hn, List.mem_map.mpr ⟨p.length - 1, ?_, ?_⟩⟩
    · rw [List.mem_range]
      have h1 : p.length ≤ n.length := hpre.length_le
      have h2 : 1 ≤ p.length := List.length_pos.mpr hne
      omega
    · have h2 : 1 ≤ p.length := List.length_pos.mpr hne
      have : p.length - 1 + 1 = p.length := by omega
      rw [this, ← List.prefix_iff_eq_take.mp hpre]

theorem build_trailing_number_index_mem {byCat : Corpus} {key : Name × Name}
    {c : CatId} {nm d : Name} :
    (c, nm, d) ∈ build_trailing_number_index byCat key ↔
      ∃ ns, (c, ns) ∈ byCat ∧ nm ∈ ns ∧ splitTailNum nm = some (key.1, d, key.2) := by
  unfold build_trailing_number_index
  rw [List.mem_flatMap]
  constructor
  · rintro ⟨e, he, hf⟩
    rw [List.mem_filterMap] at hf
    obtain ⟨nm', hnm', hfeq⟩ := hf
    cases hs : splitTailNum nm' with
    | none => rw [hs] at hfeq; simp at hfeq
    | some t =>
      obtain ⟨h', d', s'⟩ := t
      rw [hs] at hfeq
      have hfeq2 : (if (h', s') = key then some (e.1, nm', d') else none) =
          some (c, nm, d) := hfeq
      by_cases hk : (h', s') = key
      · rw [if_pos hk] at hfeq2
        injection hfeq2 with hfeq2
        injection hfeq2 with e1 e23
        injection e23 with e2 e3
        subst e1; subst e2; subst e3
        refine ⟨e.2, by simpa using he, hnm', ?_⟩
        rw [hs, ← hk]
      · rw [if_neg hk] at hfeq2; simp at hfeq2
  · rintro ⟨ns, hns, hnm, hsplit⟩
    refine ⟨(c, ns), hns, List.mem_filterMap.mpr ⟨nm, hnm, ?_⟩⟩
    rw [hsplit]
    simp

theorem ourGroup_mem {nleft : List Name} {key : Name × Name} {nm d : Name} :
    (nm, d) ∈ ourGroup nleft key ↔
      nm ∈ nleft ∧ splitTailNum nm = some (key.1, d, key.2) := by
  unfold ourGroup
  rw [List.mem_filterMap]
  constructor
  · rintro ⟨nm', hnm', hfeq⟩
    unfold tailKeyPair at hfeq
    cases hs : splitTailNum nm' with
    | none => rw [hs] at hfeq; simp at hfeq
    | some t =>
      obtain ⟨h', d', s'⟩ := t
      rw [hs] at hfeq
      have hfeq2 : (if (h', s') = key then some (nm', d') else none) =
          some (nm, d) := hfeq
      by_cases hk : (h', s') = key
      · rw [if_pos hk] at hfeq2
        injection hfeq2 with hfeq2
        injection hfeq2 with e1 e2
        subst e1; subst e2
        exact ⟨hnm', by rw [hs, ← hk]⟩
      · rw [if_neg hk] at hfeq2; simp at hfeq2
  · rintro ⟨hnm, hsplit⟩
    refine ⟨nm, hnm, ?_⟩
    unfold tailKeyPair
    rw [hsplit]
    simp

theorem groupKeys_mem {nleft : List Name} {key : Name × Name} :
    key ∈ groupKeys nleft ↔
      ∃ nm ∈ nleft, ∃ d, splitTailNum nm = some (key.1, d, key.2) := by
  unfold groupKeys
  rw [List.mem_dedup, List.mem_filterMap]
  constructor
  · rintro ⟨nm, hnm, hfeq⟩
    cases hs : splitTailNum nm with
    | none => rw [hs] at hfeq; simp at hfeq
    | some t =>
      obtain ⟨h', d', s'⟩ := t
      rw [hs] at hfeq
      simp only [Option.map_some', Option.some.injEq] at hfeq
      refine ⟨nm, hnm, d', ?_⟩
      rw [hs, ← hfeq]
  · rintro ⟨nm, hnm, d, hsplit⟩
    refine ⟨nm, hnm, ?_⟩
    rw [hsplit]
    simp

theorem dpAssign_mem {forb : List Name} {our : List (Name × Name)} {dp nm : Name} :
    (dp, nm) ∈ dpAssign forb our ↔
      ∃ d, (nm, d) ∈ our ∧ minSafeDp d forb = some dp := by
  unfold dpAssign
  rw [List.mem_filterMap]
  constructor
  · rintro ⟨⟨nm', d'⟩, hmem, hfeq⟩
    rw [Option.map_eq_some'] at hfeq
    obtain ⟨dp', hdp', heq⟩ := hfeq
    injection heq with e1 e2
    subst e1; subst e2
    exact ⟨d', hmem, hdp'⟩
  · rintro ⟨d, hmem, hdp⟩
    refine ⟨(nm, d), hmem, ?_⟩
    rw [hdp]
    simp

theorem groupNames_mem {assign : List (Name × Name)} {dp nm : Name} :
    nm ∈ groupNames assign dp ↔ (dp, nm) ∈ assign := by
  unfold groupNames
  rw [List.mem_map]
  constructor
  · rintro ⟨⟨dp', nm'⟩, hmem, heq⟩
    rw [List.mem_filter] at hmem
    obtain ⟨hmem, hdp⟩ := hmem
    simp only [beq_iff_eq] at hdp
    subst heq; subst hdp
    exact hmem
  · intro hmem
    exact ⟨(dp, nm), List.mem_filter.mpr ⟨hmem, by simp⟩, rfl⟩

theorem keyPatterns_mem {key : Name × Name} {assign : List (Name × Name)} {patt : Name} :
    patt ∈ keyPatterns key assign ↔
      ∃ dp, (∃ nm, (dp, nm) ∈ assign) ∧ 2 ≤ (groupNames assign dp).length ∧
        patt = key.1 ++ dp ++ '*' :: key.2 := by
  unfold keyPatterns
  rw [List.mem_filterMap]
  constructor
  · rintro ⟨dp, hdp, hfeq⟩
    rw [List.mem_dedup, List.mem_map] at hdp
    obtain ⟨⟨dp', nm'⟩, hmem, heq⟩ := hdp
    subst heq
    split at hfeq
    · next hlen =>
      injection hfeq with hfeq
      exact ⟨dp', ⟨nm', hmem⟩, hlen, hfeq.symm⟩
    · simp at hfeq
  · rintro ⟨dp, ⟨nm, hmem⟩, hlen, rfl⟩
    refine ⟨dp, ?_, ?_⟩
    · rw [List.mem_dedup, List.mem_map]
      exact ⟨(dp, nm), hmem, rfl⟩
    · rw [if_pos hlen]

theorem keyCovered_mem {key : Name × Name} {assign : List (Name × Name)} {nm : Name} :
    nm ∈ keyCovered key assign ↔
      ∃ dp, (dp, nm) ∈ assign ∧ 2 ≤ (groupNames assign dp).length := by
  unfold keyCovered
  rw [List.mem_flatMap]
  constructor
  · rintro ⟨dp, hdp, hmem⟩
    split at hmem
    · next hlen => exact ⟨dp, groupNames_mem.mp hmem, hlen⟩
    · simp at hmem
  · rintro ⟨dp, hmem, hlen⟩
    refine ⟨dp, ?_, ?_⟩
    · rw [List.mem_dedup, List.mem_map]
      exact ⟨(dp, nm), hmem, rfl⟩
    · rw [if_pos hlen]
      exact groupNames_mem.mpr hmem

theorem make_digit_merges_patterns_mem {cat : CatId} {nleft : List Name}
    {byCat : Corpus} {patt : Name} :
    patt ∈ make_digit_merges_patterns cat nleft byCat ↔
      ∃ key ∈ groupKeys nleft, patt ∈ keyPatterns key (assignOf byCat cat nleft key) := by
  unfold make_digit_merges_patterns
  rw [List.mem_flatMap]

theorem make_digit_merges_covered_mem {cat : CatId} {nleft : List Name}
    {byCat : Corpus} {nm : Name} :
    nm ∈ make_digit_merges_covered cat nleft byCat ↔
      ∃ key ∈ groupKeys nleft, nm ∈ keyCovered key (assignOf byCat cat nleft key) := by
  unfold make_digit_merges_covered
  rw [List.mem_flatMap]

theorem otherNums_mem {byCat : Corpus} {cat : CatId} {key : Name × Name} {d : Name} :
    d ∈ otherNums byCat cat key ↔
      ∃ c nm, c ≠ cat ∧ (c, nm, d) ∈ build_trailing_number_index byCat key := by
  unfold otherNums
  rw [List.mem_filterMap]
  constructor
  · rintro ⟨⟨c, nm, d'⟩, hmem, hfeq⟩
    by_cases hc : c == cat
    · rw [if_pos hc] at hfeq; simp at hfeq
    · rw [if_neg hc] at hfeq
      injection hfeq with hfeq
      subst hfeq
      exact ⟨c, nm, by simpa using hc, hmem⟩
  · rintro ⟨c, nm, hc, hmem⟩
    refine ⟨(c, nm, d), hmem, ?_⟩
    rw [if_neg (by simpa using hc)]

/-! ## Corpus lookup helpers -/

theorem lookupNames_eq {cats : Corpus} {cat : CatId} {ns : List Name}
    (hnd : (cats.map Prod.fst).Nodup) (h : (cat, ns) ∈ cats) :
    lookupNames cats cat = ns := by
  induction cats with
  | nil => simp at h
  | cons e0 t ih =>
    rw [List.map_cons, List.nodup_cons] at hnd
    by_cases h0 : (e0.1 == cat) = true
    · rcases List.mem_cons.mp h with rfl | hmem
      · simp [lookupNames, List.find?_cons, h0]
      · exfalso
        apply hnd.1
        have he0 : e0.1 = cat := by simpa using h0
        rw [he0]
        exact List.mem_map.mpr ⟨(cat, ns), hmem, rfl⟩
    · rcases List.mem_cons.mp h with rfl | hmem
      · simp at h0
      · have hg := ih hnd.2 hmem
        unfold lookupNames at hg
        rw [Bool.not_eq_true] at h0
        simpa [lookupNames, List.find?_cons, h0] using hg

theorem mem_lookupNames {cats : Corpus} {cat : CatId} {nm : Name}
    (h : nm ∈ lookupNames cats cat) : ∃ ns, (cat, ns) ∈ cats ∧ nm ∈ ns := by
  unfold lookupNames at h
  cases hf : cats.find? (fun e => e.1 == cat) with
  | none => rw [hf] at h; simp at h
  | some e =>
    rw [hf] at h
    simp only [Option.map_some', Option.getD_some] at h
    have he : e ∈ cats := List.mem_of_find?_eq_some hf
    have hcat : e.1 = cat := by simpa using List.find?_some hf
    exact ⟨e.2, by rw [← hcat]; simpa using he, h⟩

theorem filter_map_fst_single {l : Corpus} {pred : CatId × List Name → Bool} {cat : CatId}
    (h : (l.filter pred).map Prod.fst = [cat]) :
    (∀ e ∈ l, pred e = true → e.1 = cat) ∧ ∃ e ∈ l, e.1 = cat ∧ pred e = true := by
  constructor
  · intro e he hp
    have : e.1 ∈ (l.filter pred).map Prod.fst :=
      List.mem_map.mpr ⟨e, List.mem_filter.mpr ⟨he, hp⟩, rfl⟩
    rw [h] at this
    simpa using this
  · have hex : l.filter pred ≠ [] := by
      intro hnil
      rw [hnil] at h
      simp at h
    obtain ⟨e, he⟩ := List.exists_mem_of_ne_nil _ hex
    have hef := List.mem_filter.mp he
    have : e.1 ∈ (l.filter pred).map Prod.fst := List.mem_map.mpr ⟨e, he, rfl⟩
    rw [h] at this
    exact ⟨e, hef.1, by simpa using this, hef.2⟩

theorem filter_map_fst_eq_single {l : Corpus} {pred : CatId × List Name → Bool} {cat : CatId}
    (hnd : (l.map Prod.fst).Nodup)
    (hex : ∃ e ∈ l, e.1 = cat ∧ pred e = true)
    (hall : ∀ e ∈ l, pred e = true → e.1 = cat) :
    (l.filter pred).map Prod.fst = [cat] := by
  induction l with
  | nil => simp at hex
  | cons e0 t ih =>
    rw [List.map_cons, List.nodup_cons] at hnd
    by_cases hp : pred e0 = true
    · have he0 : e0.1 = cat := hall e0 (List.mem_cons_self ..) hp
      have hft : t.filter pred = [] := by
        rw [List.filter_eq_nil_iff]
        intro e he hpe
        apply hnd.1
        have : e.1 = cat := hall e (List.mem_cons_of_mem _ he) hpe
        rw [he0, ← this]
        exact List.mem_map.mpr ⟨e, he, rfl⟩
      rw [List.filter_cons_of_pos hp, List.map_cons, hft]
      simp [he0]
    · rw [List.filter_cons_of_neg (by simpa using hp)]
      refine ih hnd.2 ?_ ?_
      · obtain ⟨e, he, hcat, hpe⟩ := hex
        rcases List.mem_cons.mp he with rfl | hmem
        · exact absurd hpe hp
        · exact ⟨e, hmem, hcat, hpe⟩
      · intro e he hpe
        exact hall e (List.mem_cons_of_mem _ he) hpe

/-! ## The lexicographic order used by `sorted` -/

theorem lexLt_irrefl : ∀ x : List Char, lexLt x x = false := by
  intro x
  induction x with
  | nil => rfl
  | cons a as ih =>
    unfold lexLt
    rw [if_neg (lt_irrefl a), if_pos rfl]
    exact ih

theorem lexLt_trans : ∀ {x y z : List Char},
    lexLt x y = true → lexLt y z = true → lexLt x z = true := by
  intro x
  induction x with
  | nil =>
    intro y z hxy hyz
    cases y with
    | nil => simp [lexLt] at hxy
    | cons b bs =>
      cases z with
      | nil => simp [lexLt] at hyz
      | cons c cs => rfl
  | cons a as ih =>
    intro y z hxy hyz
    cases y with
    | nil => simp [lexLt] at hxy
    | cons b bs =>
      cases z with
      | nil => simp [lexLt] at hyz
      | cons c cs =>
        unfold lexLt at hxy hyz ⊢
        by_cases hab : a < b
        · by_cases hbc : b < c
          · rw [if_pos (lt_trans hab hbc)]
          · rw [if_neg hbc] at hyz
            by_cases hbec : b = c
            · subst hbec
              rw [if_pos hab]
            · rw [if_neg hbec] at hyz
              simp at hyz
        · rw [if_neg hab] at hxy
          by_cases haeb : a = b
          · subst haeb
            rw [if_pos rfl] at hxy
            by_cases hac : a < c
            · rw [if_pos hac]
            · rw [if_neg hac] at hyz ⊢
              by_cases haec : a = c
              · rw [if_pos haec] at hyz ⊢
                exact ih hxy hyz
              · rw [if_neg haec] at hyz
                simp at hyz
          · rw [if_neg haeb] at hxy
            simp at hxy

theorem lexLt_connex : ∀ {x y : List Char},
    lexLt x y = false → lexLt y x = false → x = y := by
  intro x
  induction x with
  | nil =>
    intro y hxy hyx
    cases y with
    | nil => rfl
    | cons b bs => simp [lexLt] at hxy
  | cons a as ih =>
    intro y hxy hyx
    cases y with
    | nil => simp [lexLt] at hyx
    | cons b bs =>
      unfold lexLt at hxy hyx
      by_cases hab : a < b
      · rw [if_pos hab] at hxy; simp at hxy
      · by_cases hba : b < a
        · rw [if_pos hba] at hyx; simp at hyx
        · have haeb : a = b := le_antisymm (not_lt.mp hba) (not_lt.mp hab)
          subst haeb
          rw [if_neg hab, if_pos rfl] at hxy hyx
          rw [ih hxy hyx]

theorem lexLt_asymm {x y : List Char} (h : lexLt x y = true) : lexLt y x = false := by
  by_contra hc
  rw [Bool.not_eq_false] at hc
  have := lexLt_trans h hc
  rw [lexLt_irrefl] at this
  exact absurd this (by simp)

instance : IsTotal Name LexLeP :=
  ⟨fun x y => by
    unfold LexLeP lexLe
    by_cases h : lexLt y x = true
    · right
      rw [lexLt_asymm h]
      rfl
    · left
      rw [Bool.not_eq_true] at h
      rw [h]
      rfl⟩

instance : IsTrans Name LexLeP :=
  ⟨fun x y z hxy hyz => by
    unfold LexLeP lexLe at hxy hyz ⊢
    rw [Bool.not_eq_true'] at hxy hyz ⊢
    by_contra hc
    rw [Bool.not_eq_false] at hc
    cases hzy : lexLt z y with
    | true => rw [hzy] at hyz; simp at hyz
    | false =>
      cases hyz2 : lexLt y z with
      | true =>
        have := lexLt_trans hyz2 hc
        rw [this] at hxy
        simp at hxy
      | false =>
        have : y = z := lexLt_connex hyz2 hzy
        subst this
        rw [hc] at hxy
        simp at hxy⟩

instance : IsAntisymm Name LexLeP :=
  ⟨fun x y hxy hyx => by
    unfold LexLeP lexLe at hxy hyx
    rw [Bool.not_eq_true'] at hxy hyx
    exact lexLt_connex hyx hxy⟩

/-- `sorted(...)` depends only on the underlying set: permuting the input list
(as Python's unordered set iteration does) yields the same sorted output. -/
theorem sortLex_perm_eq {l1 l2 : List Name} (h : l1.Perm l2) :
    sortLex l1 = sortLex l2 :=
  List.eq_of_perm_of_sorted
    ((List.perm_insertionSort _ l1).trans (h.trans (List.perm_insertionSort _ l2).symm))
    (List.sorted_insertionSort _ l1) (List.sorted_insertionSort _ l2)

theorem sortByLen_perm {l1 l2 : List Name} (h : l1.Perm l2) :
    (sortByLen l1).Perm (sortByLen l2) :=
  (List.perm_insertionSort _ l1).trans (h.trans (List.perm_insertionSort _ l2).symm)

/-- The length profile of `sorted(..., key=len)` is enumeration independent. -/
theorem sortByLen_lengths {l1 l2 : List Name} (h : l1.Perm l2) :
    (sortByLen l1).map List.length = (sortByLen l2).map List.length := by
  have hs1 : List.Sorted (· ≤ ·) ((sortByLen l1).map List.length) := by
    refine List.Pairwise.map _ ?_ (List.sorted_insertionSort _ _)
    intro a b hab
    exact hab
  have hs2 : List.Sorted (· ≤ ·) ((sortByLen l2).map List.length) := by
    refine List.Pairwise.map _ ?_ (List.sorted_insertionSort _ _)
    intro a b hab
    exact hab
  exact List.eq_of_perm_of_sorted ((sortByLen_perm h).map _) hs1 hs2

theorem sortByLen_sorted (l : List Name) : List.Sorted LenLeP (sortByLen l) :=
  List.sorted_insertionSort _ l

theorem sortByLen_mem {l : List Name} {x : Name} : x ∈ sortByLen l ↔ x ∈ l :=
  (List.perm_insertionSort _ l).mem_iff

theorem sortLex_mem {l : List Name} {x : Name} : x ∈ sortLex l ↔ x ∈ l :=
  (List.perm_insertionSort _ l).mem_iff

/-! ## Pipeline-level helpers -/

theorem metaFree_of_pre {nm p : Name} (h : MetaFree nm) (hp : p <+: nm) : MetaFree p :=
  fun c hc => h c (hp.subset hc)

theorem metaFree_of_lookup {cats : Corpus}
    (hmf : ∀ e ∈ cats, ∀ nm ∈ e.2, MetaFree nm) {cat : CatId} {nm : Name}
    (h : nm ∈ lookupNames cats cat) : MetaFree nm := by
  obtain ⟨ns, hns, hnm⟩ := mem_lookupNames h
  exact hmf (cat, ns) hns nm hnm

theorem allNamesByCat_mem {cats : Corpus} {c : CatId} {ns : List Name}
    (h : (c, ns) ∈ cats) : (c, ns.dedup) ∈ allNamesByCat cats :=
  List.mem_map.mpr ⟨(c, ns), h, rfl⟩

theorem allNamesByCat_mem' {cats : Corpus} {e : CatId × List Name}
    (h : e ∈ allNamesByCat cats) : ∃ ns0, (e.1, ns0) ∈ cats ∧ e.2 = ns0.dedup := by
  obtain ⟨e0, he0, heq⟩ := List.mem_map.mp h
  exact ⟨e0.2, by rw [← heq]; simpa using he0, by rw [← heq]⟩

theorem allNamesByCat_fst (cats : Corpus) :
    (allNamesByCat cats).map Prod.fst = cats.map Prod.fst := by
  unfold allNamesByCat
  rw [List.map_map]
  rfl

/-- What membership in the kept set of stage 1 gives: the prefix is unique to
the category in the separator-prefix index, and some name of the category
produced it. -/
theorem keptOf_spec {cats : Corpus} {cat : CatId} {p : Name} (h : p ∈ keptOf cats cat) :
    catsWithPref cats p = [cat] ∧ ∃ nm ∈ lookupNames cats cat, p ∈ sep_prefixes nm := by
  unfold keptOf compute_unique_prefixes_for_category at h
  simp only [] at h
  have h1 := keepPrefixes_subset h
  rw [sortByLen_mem, List.mem_dedup, List.mem_filterMap] at h1
  obtain ⟨nm, hnm, hcand⟩ := h1
  unfold candPref at hcand
  have hpred := List.find?_some hcand
  have hmem := List.mem_of_find?_eq_some hcand
  exact ⟨by simpa using hpred, nm, hnm, hmem⟩

/-- Uniqueness of a separator prefix: every corpus name extending it belongs
to the owning category. -/
theorem pref_unique_cat {cats : Corpus} {p : Name} {cat : CatId}
    (hu : catsWithPref cats p = [cat]) {c : CatId} {ns : List Name} {nm nm0 : Name}
    (he : (c, ns) ∈ cats) (hnm : nm ∈ ns) (hpre : p <+: nm)
    (hsep : p ∈ sep_prefixes nm0) : c = cat := by
  have hsep' : p ∈ sep_prefixes nm := sep_prefixes_transfer hsep hpre
  refine (filter_map_fst_single hu).1 (c, ns) he ?_
  rw [List.any_eq_true]
  exact ⟨nm, hnm, contains_iff_mem'.mpr hsep'⟩

theorem catsHit_name {byCat : Corpus} {patt : Name} {cat : CatId}
    (h : catsHit byCat patt = [cat]) {c : CatId} {ns : List Name} {nm : Name}
    (he : (c, ns) ∈ byCat) (hnm : nm ∈ ns) (hm : fnmatchL patt nm = true) : c = cat := by
  refine (filter_map_fst_single h).1 (c, ns) he ?_
  rw [List.any_eq_true]
  exact ⟨nm, hnm, hm⟩

/-- The central stage-1 safety fact: the emitted pattern `p*` of a kept prefix
`p` of `cat` glob-hits exactly `{cat}` — provided names carry no glob
metacharacters. -/
theorem kept_catsHit {cats : Corpus} {cat : CatId}
    (hnd : (cats.map Prod.fst).Nodup)
    (hmf : ∀ e ∈ cats, ∀ nm ∈ e.2, MetaFree nm)
    {p : Name} (hp : p ∈ keptOf cats cat) :
    catsHit (allNamesByCat cats) (p ++ ['*']) = [cat] := by
  obtain ⟨hu, nm0, hnm0, hsep0⟩ := keptOf_spec hp
  have hpre0 : p <+: nm0 := sep_prefixes_isPre hsep0
  have hmfp : MetaFree p := metaFree_of_pre (metaFree_of_lookup hmf hnm0) hpre0
  obtain ⟨ns, hns, hnm0'⟩ := mem_lookupNames hnm0
  unfold catsHit
  refine filter_map_fst_eq_single (by rw [allNamesByCat_fst]; exact hnd) ?_ ?_
  · refine ⟨(cat, ns.dedup), allNamesByCat_mem hns, rfl, ?_⟩
    rw [List.any_eq_true]
    exact ⟨nm0, List.mem_dedup.mpr hnm0',
      (fnmatchL_pref_star hmfp nm0).mpr hpre0⟩
  · rintro e he hpe
    obtain ⟨ns0, hns0, hns0e⟩ := allNamesByCat_mem' he
    rw [List.any_eq_true] at hpe
    obtain ⟨nm, hnm, hm⟩ := hpe
    have hpre : p <+: nm := (fnmatchL_pref_star hmfp nm).mp hm
    have hnm' : nm ∈ ns0 := by
      rw [hns0e] at hnm
      exact List.mem_dedup.mp hnm
    exact pref_unique_cat hu hns0 hnm' hpre hsep0

theorem finalPatts_mem {cats : Corpus} {cat : CatId} {patt : Name} :
    patt ∈ finalPatts cats cat ↔
      patt ∈ dpattsSel cats cat ∧ catsHit (allNamesByCat cats) patt = [cat] := by
  unfold finalPatts
  rw [List.mem_filter]
  constructor
  · rintro ⟨h1, h2⟩
    exact ⟨h1, by simpa using h2⟩
  · rintro ⟨h1, h2⟩
    exact ⟨h1, by simpa using h2⟩

theorem entriesD_eq_lookup_dedup (cats : Corpus) (cat : CatId) :
    entriesD cats cat = (lookupNames cats cat).dedup := rfl

theorem namesLeft_mem {cats : Corpus} {cat : CatId} {nm : Name} :
    nm ∈ namesLeftOf cats cat ↔
      nm ∈ entriesD cats cat ∧ ¬ ∃ k ∈ keptOf cats cat, k <+: nm := by
  unfold namesLeftOf
  rw [List.mem_filter]
  constructor
  · rintro ⟨h1, h2⟩
    refine ⟨h1, ?_⟩
    rintro ⟨k, hk, hkp⟩
    rw [Bool.not_eq_eq_eq_not, Bool.not_true, List.any_eq_false] at h2
    exact absurd (List.isPrefixOf_iff_prefix.mpr hkp) (by simpa using h2 k hk)
  · rintro ⟨h1, h2⟩
    refine ⟨h1, ?_⟩
    rw [Bool.not_eq_eq_eq_not, Bool.not_true, List.any_eq_false]
    intro k hk
    rw [Bool.not_eq_true, ← Bool.not_eq_true, List.isPrefixOf_iff_prefix]
    intro hkp
    exact h2 ⟨k, hk, hkp⟩

theorem coveredU_mem {cats : Corpus} {cat : CatId} {nm : Name} :
    nm ∈ coveredU cats cat ↔
      nm ∈ entriesD cats cat ∧ ∃ k ∈ keptOf cats cat, k <+: nm := by
  unfold coveredU compute_unique_prefixes_for_category
  simp only []
  rw [List.mem_filter]
  constructor
  · rintro ⟨h1, h2⟩
    rw [List.any_eq_true] at h2
    obtain ⟨k, hk, hkp⟩ := h2
    exact ⟨h1, k, hk, List.isPrefixOf_iff_prefix.mp hkp⟩
  · rintro ⟨h1, k, hk, hkp⟩
    refine ⟨h1, ?_⟩
    rw [List.any_eq_true]
    exact ⟨k, hk, List.isPrefixOf_iff_prefix.mpr hkp⟩

theorem dcov_sub {cats : Corpus} {cat : CatId} {nm : Name}
    (h : nm ∈ dcovOf cats cat) : nm ∈ namesLeftOf cats cat := by
  unfold dcovOf at h
  rw [make_digit_merges_covered_mem] at h
  obtain ⟨key, hkey, hcov⟩ := h
  rw [keyCovered_mem] at hcov
  obtain ⟨dp, hmem, -⟩ := hcov
  unfold assignOf at hmem
  rw [dpAssign_mem] at hmem
  obtain ⟨d, hmem, -⟩ := hmem
  exact (ourGroup_mem.mp hmem).1

/-- A name covered by the numeric-merge selector glob-matches one of the
selector's patterns (metacharacter-free names). -/
theorem dcov_matched {cats : Corpus} {cat : CatId} {nm : Name}
    (h : nm ∈ dcovOf cats cat) (hmf : MetaFree nm) :
    ∃ patt ∈ dpattsSel cats cat, fnmatchL patt nm = true := by
  unfold dcovOf at h
  rw [make_digit_merges_covered_mem] at h
  obtain ⟨key, hkey, hcov⟩ := h
  rw [keyCovered_mem] at hcov
  obtain ⟨dp, hmem, hlen⟩ := hcov
  have hassign := hmem
  unfold assignOf at hmem
  rw [dpAssign_mem] at hmem
  obtain ⟨d, hour, hdp⟩ := hmem
  obtain ⟨hnl, hsplit⟩ := ourGroup_mem.mp hour
  obtain ⟨hnm_eq, -, -, -, -⟩ := splitTailNum_some hsplit
  obtain ⟨L, hL1, hLlen, hdpL, -, -⟩ := minSafeDp_some hdp
  refine ⟨key.1 ++ dp ++ '*' :: key.2, ?_, ?_⟩
  · unfold dpattsSel
    rw [make_digit_merges_patterns_mem]
    refine ⟨key, hkey, ?_⟩
    rw [keyPatterns_mem]
    exact ⟨dp, ⟨nm, hassign⟩, hlen, rfl⟩
  · have hmfa : MetaFree (key.1 ++ dp) := by
      intro c hc
      rcases List.mem_append.mp hc with hc1 | hc2
      · exact hmf c (by rw [hnm_eq]; simp [hc1])
      · have hcd : c ∈ d := hdpL ▸ hc2 |> (List.take_subset L d ·)
        exact hmf c (by rw [hnm_eq]; simp [hcd])
    have hmfb : MetaFree key.2 := by
      intro c hc
      exact hmf c (by rw [hnm_eq]; simp [hc])
    have hnm2 : nm = (key.1 ++ dp) ++ ((d.drop L) ++ key.2) := by
      rw [hnm_eq, hdpL]
      have hd : List.take L d ++ (List.drop L d ++ key.2) = d ++ key.2 := by
        rw [← List.append_assoc, List.take_append_drop]
      simp only [List.append_assoc, hd]
    have hpatt : key.1 ++ dp ++ '*' :: key.2 = (key.1 ++ dp) ++ '*' :: key.2 := by
      simp
    rw [hnm2, hpatt]
    exact fnmatchL_mid_star hmfa hmfb (d.drop L)

theorem leftovers_mem {cats : Corpus} {cat : CatId} {nm : Name} :
    nm ∈ leftoversOf cats cat ↔
      nm ∈ namesLeftOf cats cat ∧ nm ∉ dcovOf cats cat := by
  unfold leftoversOf
  rw [sortLex_mem, List.mem_filter]
  constructor
  · rintro ⟨h1, h2⟩
    refine ⟨h1, ?_⟩
    rw [Bool.not_eq_eq_eq_not, Bool.not_true] at h2
    intro hmem
    rw [contains_iff_mem'.mpr hmem] at h2
    simp at h2
  · rintro ⟨h1, h2⟩
    refine ⟨h1, ?_⟩
    rw [Bool.not_eq_eq_eq_not, Bool.not_true]
    cases hc : (dcovOf cats cat).contains nm with
    | false => rfl
    | true => exact absurd (contains_iff_mem'.mp hc) h2

theorem allNamesList_mem {cats : Corpus} {nm : Name} :
    nm ∈ allNamesList cats ↔ ∃ e ∈ cats, nm ∈ e.2 :=
  List.mem_flatMap

theorem namesLeft_nodup (cats : Corpus) (cat : CatId) :
    (namesLeftOf cats cat).Nodup :=
  (List.nodup_dedup _).filter _

theorem ourGroup_fst_sublist (nleft : List Name) (key : Name × Name) :
    ((ourGroup nleft key).map Prod.fst).Sublist nleft := by
  induction nleft with
  | nil => simp [ourGroup]
  | cons nm t ih =>
    unfold ourGroup at ih ⊢
    rw [List.filterMap_cons]
    cases hs : splitTailNum nm with
    | none =>
      have hf : tailKeyPair key nm = none := by
        unfold tailKeyPair
        rw [hs]
      rw [hf]
      exact ih.cons nm
    | some tr =>
      obtain ⟨h', d', s'⟩ := tr
      by_cases hk : (h', s') = key
      · have hf : tailKeyPair key nm = some (nm, d') := by
          unfold tailKeyPair
          rw [hs]
          exact if_pos hk
        rw [hf]
        exact ih.cons₂ nm
      · have hf : tailKeyPair key nm = none := by
          unfold tailKeyPair
          rw [hs]
          exact if_neg hk
        rw [hf]
        exact ih.cons nm

theorem dpAssign_snd_sublist (forb : List Name) (our : List (Name × Name)) :
    ((dpAssign forb our).map Prod.snd).Sublist (our.map Prod.fst) := by
  induction our with
  | nil => simp [dpAssign]
  | cons x t ih =>
    unfold dpAssign at ih ⊢
    rw [List.filterMap_cons, List.map_cons]
    cases hs : minSafeDp x.2 forb with
    | none => exact ih.cons x.1
    | some dp =>
      simp only [Option.map_some']
      rw [List.map_cons]
      exact ih.cons₂ x.1

theorem groupNames_sublist (assign : List (Name × Name)) (dp : Name) :
    (groupNames assign dp).Sublist (assign.map Prod.snd) :=
  (List.filter_sublist assign).map Prod.snd

theorem groupNames_nodup {cats : Corpus} {cat : CatId} (key : Name × Name) (dp : Name) :
    (groupNames (assignOf (allNamesByCat cats) cat (namesLeftOf cats cat) key) dp).Nodup := by
  refine List.Nodup.sublist ?_ (namesLeft_nodup cats cat)
  refine ((groupNames_sublist _ dp).trans ?_)
  exact (dpAssign_snd_sublist _ _).trans (ourGroup_fst_sublist _ key)

/-! ## Claim C1 -/

/-- C1 (counterexample): at the concrete corpus `corpusBracket` the kept
hierarchical prefix `a[x]/` of category 1 is emitted as glob `a[x]/*`, but
glob-matching that pattern against the full corpus hits exactly category 2,
not the owning category 1 — the `[x]` is a character class under `fnmatch`.
This refutes the claim that every emitted pattern hits names of exactly its
owning category. -/
theorem C1_counterexample :
    "a[x]/".toList ∈ keptOf corpusBracket "1".toList ∧
    catsHit (allNamesByCat corpusBracket) ("a[x]/".toList ++ ['*']) = ["2".toList] ∧
    "1".toList ≠ "2".toList := by decide

/-- C1 (amended): provided no name of the corpus carries a glob
metacharacter (`*`, `?`, `[`), every emitted pattern of every category —
kept hierarchical prefixes as `p*` and numeric merge patterns that survived
the final check — glob-hits names of exactly one category, the owning one. -/
theorem C1_theorem (cats : Corpus) (cat : CatId)
    (hnd : (cats.map Prod.fst).Nodup)
    (hmf : ∀ e ∈ cats, ∀ nm ∈ e.2, MetaFree nm) :
    (∀ p ∈ keptOf cats cat, catsHit (allNamesByCat cats) (p ++ ['*']) = [cat]) ∧
    (∀ patt ∈ finalPatts cats cat, catsHit (allNamesByCat cats) patt = [cat]) := by
  constructor
  · intro p hp
    exact kept_catsHit hnd hmf hp
  · intro patt hpatt
    exact (finalPatts_mem.mp hpatt).2

/-- C1 (witness): the amended theorem applied to a concrete corpus. -/
theorem C1_witness :
    catsHit (allNamesByCat corpusTie) ("a/".toList ++ ['*']) = ["1".toList] :=
  (C1_theorem corpusTie "1".toList (by decide) (by decide)).1 "a/".toList (by decide)

/-! ## Claim C2 -/

/-- C2 (counterexample): at `corpusDiscard` category 1's two names are marked
covered by the selector pattern `x1*`, the final check discards that pattern,
and nothing re-covers the names: no prefix, no surviving pattern and no
leftover is emitted for category 1, so re-expanding the emitted patterns plus
leftovers yields the empty set instead of the category's two names, and the
union of emitted coverage and leftovers is not the original entry set. -/
theorem C2_counterexample :
    entriesD corpusDiscard "1".toList = ["x10".toList, "x11".toList] ∧
    keptOf corpusDiscard "1".toList = [] ∧
    finalPatts corpusDiscard "1".toList = [] ∧
    leftoversOf corpusDiscard "1".toList = [] := by decide

/-- C2 (amended): the three classification sets of the selector stage —
covered by unique prefixes, covered by the numeric-merge selector, and
leftovers — partition the category's entry set; and provided every selector
pattern passes the final cross-category check and no name carries a glob
metacharacter, re-expanding the emitted patterns against the full corpus,
unioned with the leftovers, yields exactly the entry set. -/
theorem C2_theorem (cats : Corpus) (cat : CatId)
    (hnd : (cats.map Prod.fst).Nodup)
    (hmf : ∀ e ∈ cats, ∀ nm ∈ e.2, MetaFree nm)
    (hnodisc : ∀ patt ∈ dpattsSel cats cat, catsHit (allNamesByCat cats) patt = [cat]) :
    (∀ nm, nm ∈ entriesD cats cat ↔
      (nm ∈ coveredU cats cat ∨ nm ∈ dcovOf cats cat ∨ nm ∈ leftoversOf cats cat)) ∧
    (∀ nm, ¬(nm ∈ coveredU cats cat ∧ nm ∈ dcovOf cats cat)) ∧
    (∀ nm, ¬(nm ∈ coveredU cats cat ∧ nm ∈ leftoversOf cats cat)) ∧
    (∀ nm, ¬(nm ∈ dcovOf cats cat ∧ nm ∈ leftoversOf cats cat)) ∧
    (∀ nm,
      ((nm ∈ allNamesList cats ∧
        ((∃ p ∈ keptOf cats cat, fnmatchL (p ++ ['*']) nm = true) ∨
          (∃ patt ∈ finalPatts cats cat, fnmatchL patt nm = true))) ∨
        nm ∈ leftoversOf cats cat) ↔
      nm ∈ entriesD cats cat) := by
  refine ⟨?_, ?_, ?_, ?_, ?_⟩
  · intro nm
    constructor
    · intro hent
      by_cases hc : ∃ k ∈ keptOf cats cat, k <+: nm
      · exact Or.inl (coveredU_mem.mpr ⟨hent, hc⟩)
      · have hnl : nm ∈ namesLeftOf cats cat := namesLeft_mem.mpr ⟨hent, hc⟩
        by_cases hdc : nm ∈ dcovOf cats cat
        · exact Or.inr (Or.inl hdc)
        · exact Or.inr (Or.inr (leftovers_mem.mpr ⟨hnl, hdc⟩))
    · rintro (h | h | h)
      · exact (coveredU_mem.mp h).1
      · exact (namesLeft_mem.mp (dcov_sub h)).1
      · exact (namesLeft_mem.mp (leftovers_mem.mp h).1).1
  · rintro nm ⟨h1, h2⟩
    exact (namesLeft_mem.mp (dcov_sub h2)).2 (coveredU_mem.mp h1).2
  · rintro nm ⟨h1, h2⟩
    exact (namesLeft_mem.mp (leftovers_mem.mp h2).1).2 (coveredU_mem.mp h1).2
  · rintro nm ⟨h1, h2⟩
    exact (leftovers_mem.mp h2).2 h1
  · intro nm
    constructor
    · rintro (⟨hall, hmatch⟩ | hleft)
      · rcases hmatch with ⟨p, hp, hm⟩ | ⟨patt, hpatt, hm⟩
        · obtain ⟨hu, nm0, hnm0, hsep0⟩ := keptOf_spec hp
          have hmfp : MetaFree p :=
            metaFree_of_pre (metaFree_of_lookup hmf hnm0) (sep_prefixes_isPre hsep0)
          have hpre : p <+: nm := (fnmatchL_pref_star hmfp nm).mp hm
          obtain ⟨e, he, hnme⟩ := allNamesList_mem.mp hall
          have hcat : e.1 = cat := by
            refine pref_unique_cat hu ?_ hnme hpre hsep0
            rw [show (e.1, e.2) = e from rfl]
            exact he
          rw [entriesD_eq_lookup_dedup, List.mem_dedup,
            lookupNames_eq hnd (by rw [← hcat]; rw [show (e.1, e.2) = e from rfl]; exact he)]
          exact hnme
        · have hhit := (finalPatts_mem.mp hpatt).2
          obtain ⟨e, he, hnme⟩ := allNamesList_mem.mp hall
          have hcat : e.1 = cat := by
            refine catsHit_name hhit (allNamesByCat_mem ?_) (List.mem_dedup.mpr hnme) hm
            rw [show (e.1, e.2) = e from rfl]
            exact he
          rw [entriesD_eq_lookup_dedup, List.mem_dedup,
            lookupNames_eq hnd (by rw [← hcat]; rw [show (e.1, e.2) = e from rfl]; exact he)]
          exact hnme
      · exact (namesLeft_mem.mp (leftovers_mem.mp hleft).1).1
    · intro hent
      have hmfnm : MetaFree nm :=
        metaFree_of_lookup hmf (List.mem_dedup.mp hent)
      have hall : nm ∈ allNamesList cats := by
        obtain ⟨ns, hns, hnm⟩ := mem_lookupNames (List.mem_dedup.mp hent)
        exact allNamesList_mem.mpr ⟨(cat, ns), hns, hnm⟩
      by_cases hc : ∃ k ∈ keptOf cats cat, k <+: nm
      · obtain ⟨k, hk, hkp⟩ := hc
        refine Or.inl ⟨hall, Or.inl ⟨k, hk, ?_⟩⟩
        exact (fnmatchL_pref_star (metaFree_of_pre hmfnm hkp) nm).mpr hkp
      · have hnl : nm ∈ namesLeftOf cats cat := namesLeft_mem.mpr ⟨hent, hc⟩
        by_cases hdc : nm ∈ dcovOf cats cat
        · obtain ⟨patt, hpatt, hm⟩ := dcov_matched hdc hmfnm
          exact Or.inl ⟨hall, Or.inr
            ⟨patt, finalPatts_mem.mpr ⟨hpatt, hnodisc patt hpatt⟩, hm⟩⟩
        · exact Or.inr (leftovers_mem.mpr ⟨hnl, hdc⟩)

/-- C2 (witness): the amended theorem applied to a concrete corpus whose
selector pattern survives the final check. -/
theorem C2_witness :
    "r10a".toList ∈ entriesD corpusTail "1".toList ↔
      ("r10a".toList ∈ coveredU corpusTail "1".toList ∨
        "r10a".toList ∈ dcovOf corpusTail "1".toList ∨
        "r10a".toList ∈ leftoversOf corpusTail "1".toList) :=
  (C2_theorem corpusTail "1".toList (by decide) (by decide) (by decide)).1 "r10a".toList

/-! ## Claim C3 -/

/-- C3: the code run at the failing input `corpusDiscard` (category 1 owns
`x10`, `x11`; category 2 owns `x1y`).  The selector emits `x1*` and marks
both names covered; the final safety check sees the pattern hit both
categories and discards it — silently, as the claim says — but the covered
names do *not* revert to leftover status: the leftover set was computed
before the check and stays empty, so `x10` and `x11` are dropped from the
output entirely instead of being emitted as literal lines. -/
theorem C3_theorem :
    dpattsSel corpusDiscard "1".toList = ["x1*".toList] ∧
    dcovOf corpusDiscard "1".toList = ["x10".toList, "x11".toList] ∧
    catsHit (allNamesByCat corpusDiscard) "x1*".toList = ["1".toList, "2".toList] ∧
    finalPatts corpusDiscard "1".toList = [] ∧
    leftoversOf corpusDiscard "1".toList = [] ∧
    keptOf corpusDiscard "1".toList = [] := by decide

/-! ## Claim C4 -/

/-- C4 (counterexample): in `corpusCovered` the name `p/a1` of category 1 is
covered by the stage-1 prefix `p/`, yet it still contributes the triple
`(1, p/a1, 1)` to the trailing-number index — the index is built over *all*
names, not over the stage-1 leftovers as the claim states. -/
theorem C4_counterexample :
    "p/a1".toList ∈ coveredU corpusCovered "1".toList ∧
    ("1".toList, "p/a1".toList, "1".toList) ∈
      build_trailing_number_index (allNamesByCat corpusCovered)
        ("p/a".toList, []) := by decide

/-- C4 (amended): the trailing-numeric index the pipeline consults is built
over the full (deduplicated) name sets of all categories: a triple
`(c, nm, d)` is in the index at `key` exactly when `nm` is any name of
category `c` whose tail-number split matches `key` — regardless of stage-1
coverage. -/
theorem C4_theorem (cats : Corpus) (key : Name × Name) (c : CatId) (nm d : Name) :
    (c, nm, d) ∈ build_trailing_number_index (allNamesByCat cats) key ↔
      ∃ ns, (c, ns) ∈ cats ∧ nm ∈ ns ∧ splitTailNum nm = some (key.1, d, key.2) := by
  rw [build_trailing_number_index_mem]
  constructor
  · rintro ⟨ns, hns, hnm, hsplit⟩
    obtain ⟨ns0, hns0, hdedup⟩ := allNamesByCat_mem' hns
    have hns0' : (c, ns0) ∈ cats := hns0
    have hdedup' : ns = ns0.dedup := hdedup
    refine ⟨ns0, hns0', ?_, hsplit⟩
    rw [hdedup'] at hnm
    exact List.mem_dedup.mp hnm
  · rintro ⟨ns, hns, hnm, hsplit⟩
    exact ⟨ns.dedup, allNamesByCat_mem hns, List.mem_dedup.mpr hnm, hsplit⟩

/-- C4 (witness): the amended characterization applied to a concrete triple. -/
theorem C4_witness :
    ("1".toList, "p/a1".toList, "1".toList) ∈
      build_trailing_number_index (allNamesByCat corpusCovered) ("p/a".toList, []) :=
  (C4_theorem corpusCovered ("p/a".toList, []) "1".toList "p/a1".toList "1".toList).mpr
    ⟨["p/a1".toList], by decide, by decide, by decide⟩

/-! ## Claim C5 -/

/-- C5: the digit-piece selection as the claim states it.  The forbidden set
is exactly the set of all leading pieces, of every length, of the competitor
digit strings; `minSafeDp` returns `d.take L` for the least `L ≥ 1` whose
piece is the prefix of no competitor digit string, and `none` (the name stays
unmerged) when every length up to `len d` is forbidden.  The last conjunct:
an unmergeable name of the leftover set is never covered by the selector. -/
theorem C5_theorem (d : Name) (others : List Name) :
    (minSafeDp d (prefixes_of_numbers_set others) = none ↔
      ∀ L, 1 ≤ L → L ≤ d.length → ∃ n ∈ others, d.take L <+: n) ∧
    (∀ dp, minSafeDp d (prefixes_of_numbers_set others) = some dp →
      ∃ L, 1 ≤ L ∧ L ≤ d.length ∧ dp = d.take L ∧
        ¬(∃ n ∈ others, d.take L <+: n) ∧
        ∀ K, 1 ≤ K → K < L → ∃ n ∈ others, d.take K <+: n) ∧
    (∀ (cats : Corpus) (cat : CatId) (nm hh ss : Name),
      nm ∈ namesLeftOf cats cat →
      splitTailNum nm = some (hh, d, ss) →
      minSafeDp d (forbOf (allNamesByCat cats) cat (hh, ss)) = none →
      nm ∉ dcovOf cats cat) := by
  have hne : ∀ L, 1 ≤ L → L ≤ d.length → d.take L ≠ [] := by
    intro L h1 h2 hnil
    rw [List.take_eq_nil_iff] at hnil
    rcases hnil with h' | h'
    · omega
    · rw [h'] at h2; simp at h2; omega
  refine ⟨?_, ?_, ?_⟩
  · rw [minSafeDp_none_iff]
    constructor
    · intro hf L h1 h2
      have := prefixes_of_numbers_set_mem.mp (hf L h1 h2)
      exact this.2
    · intro hf L h1 h2
      exact prefixes_of_numbers_set_mem.mpr ⟨hne L h1 h2, hf L h1 h2⟩
  · intro dp hdp
    obtain ⟨L, h1, h2, h3, h4, h5⟩ := minSafeDp_some hdp
    refine ⟨L, h1, h2, h3, ?_, ?_⟩
    · intro hcon
      exact h4 (prefixes_of_numbers_set_mem.mpr ⟨hne L h1 h2, hcon⟩)
    · intro K hK1 hK2
      exact (prefixes_of_numbers_set_mem.mp (h5 K hK1 hK2)).2
  · intro cats cat nm hh ss hnl hsplit hnone hcov
    unfold dcovOf at hcov
    rw [make_digit_merges_covered_mem] at hcov
    obtain ⟨key, hkey, hc⟩ := hcov
    rw [keyCovered_mem] at hc
    obtain ⟨dp, hmem, -⟩ := hc
    unfold assignOf at hmem
    rw [dpAssign_mem] at hmem
    obtain ⟨d', hour, hdp'⟩ := hmem
    obtain ⟨-, hsplit'⟩ := ourGroup_mem.mp hour
    rw [hsplit] at hsplit'
    injection hsplit' with hsplit'
    injection hsplit' with e1 e23
    injection e23 with e2 e3
    have hkeyeq : key = (hh, ss) := by
      rw [Prod.ext_iff]
      exact ⟨e1.symm, e3.symm⟩
    rw [hkeyeq, ← e2] at hdp'
    rw [hdp'] at hnone
    exact absurd hnone (by simp)

/-- C5 (witness): for `d = 12` against the single competitor `13`, the
selected piece is `12` itself: length 1 is forbidden (`1` leads `13`),
length 2 is not. -/
theorem C5_witness :
    ∃ L, 1 ≤ L ∧ L ≤ ("12".toList).length ∧ "12".toList = ("12".toList).take L ∧
      ¬(∃ n ∈ ["13".toList], ("12".toList).take L <+: n) ∧
      ∀ K, 1 ≤ K → K < L → ∃ n ∈ ["13".toList], ("12".toList).take K <+: n :=
  ( C5_theorem "12".toList ["13".toList]).2.1 "12".toList (by decide)

/-! ## Claim C6 -/

/-- C6: a numeric merge pattern is produced by the selector for a category
exactly when its minimal-safe-digit-piece group holds two or more of the
category's (distinct) leftover names; every name of such a group is marked
covered; every finally emitted pattern is a selector pattern (so it covers
two or more names as well); and every kept hierarchical prefix covers at
least one name of its category. -/
theorem C6_theorem (cats : Corpus) (cat : CatId) :
    (∀ patt, patt ∈ dpattsSel cats cat ↔
      ∃ key ∈ groupKeys (namesLeftOf cats cat), ∃ dp,
        2 ≤ (groupNames (assignOf (allNamesByCat cats) cat
              (namesLeftOf cats cat) key) dp).length ∧
        patt = key.1 ++ dp ++ '*' :: key.2) ∧
    (∀ key dp,
      (groupNames (assignOf (allNamesByCat cats) cat
          (namesLeftOf cats cat) key) dp).Nodup ∧
      (key ∈ groupKeys (namesLeftOf cats cat) →
        2 ≤ (groupNames (assignOf (allNamesByCat cats) cat
              (namesLeftOf cats cat) key) dp).length →
        ∀ nm ∈ groupNames (assignOf (allNamesByCat cats) cat
              (namesLeftOf cats cat) key) dp, nm ∈ dcovOf cats cat)) ∧
    (∀ patt ∈ finalPatts cats cat, patt ∈ dpattsSel cats cat) ∧
    (∀ p ∈ keptOf cats cat,
      ∃ nm, nm ∈ lookupNames cats cat ∧ p <+: nm ∧ nm ∈ coveredU cats cat) := by
  refine ⟨?_, ?_, ?_, ?_⟩
  · intro patt
    unfold dpattsSel
    rw [make_digit_merges_patterns_mem]
    constructor
    · rintro ⟨key, hkey, hp⟩
      rw [keyPatterns_mem] at hp
      obtain ⟨dp, -, hlen, heq⟩ := hp
      exact ⟨key, hkey, dp, hlen, heq⟩
    · rintro ⟨key, hkey, dp, hlen, heq⟩
      refine ⟨key, hkey, ?_⟩
      rw [keyPatterns_mem]
      have hne : groupNames (assignOf (allNamesByCat cats) cat
          (namesLeftOf cats cat) key) dp ≠ [] := by
        intro hnil
        rw [hnil] at hlen
        simp at hlen
      obtain ⟨nm, hnm⟩ := List.exists_mem_of_ne_nil _ hne
      exact ⟨dp, ⟨nm, groupNames_mem.mp hnm⟩, hlen, heq⟩
  · intro key dp
    refine ⟨groupNames_nodup key dp, ?_⟩
    intro hkey hlen nm hnm
    unfold dcovOf
    rw [make_digit_merges_covered_mem]
    refine ⟨key, hkey, ?_⟩
    rw [keyCovered_mem]
    exact ⟨dp, groupNames_mem.mp hnm, hlen⟩
  · intro patt hpatt
    exact (finalPatts_mem.mp hpatt).1
  · intro p hp
    obtain ⟨hu, nm0, hnm0, hsep0⟩ := keptOf_spec hp
    have hpre : p <+: nm0 := sep_prefixes_isPre hsep0
    exact ⟨nm0, hnm0, hpre,
      coveredU_mem.mpr ⟨List.mem_dedup.mpr hnm0, p, hp, hpre⟩⟩

/-- C6 (witness): at `corpusTail` the surviving pattern `r1*a` is indeed a
selector pattern. -/
theorem C6_witness : "r1*a".toList ∈ dpattsSel corpusTail "1".toList :=
  (C6_theorem corpusTail "1".toList).2.2.1 "r1*a".toList (by decide)

/-! ## Claim C7 -/

/-- C7: the kept hierarchical prefixes of any category form an antichain
under the prefix relation: no kept prefix is a proper prefix (or extension)
of another kept prefix of the same category. -/
theorem C7_theorem (cats : Corpus) (cat : CatId) :
    ∀ p ∈ keptOf cats cat, ∀ q ∈ keptOf cats cat, p ≠ q → ¬ p <+: q := by
  have hnd : (sortByLen ((lookupNames cats cat).filterMap (candPref cats cat)).dedup).Nodup := by
    unfold sortByLen
    rw [(List.perm_insertionSort LenLeP _).nodup_iff]
    exact List.nodup_dedup _
  exact keepPrefixes_antichain (sortByLen_sorted _) hnd

/-- C7 (witness): the two equal-length kept prefixes of `corpusTie` do not
extend one another. -/
theorem C7_witness : ¬ "a/".toList <+: "b/".toList :=
  C7_theorem corpusTie "1".toList "a/".toList (by decide) "b/".toList (by decide)
    (by decide)

/-! ## Claim C8 -/

/-- C8 (counterexample): the name `r10a`, whose last digit run `10` is
followed by the non-digit `a`, *is* entered into the trailing-numeric index
(with suffix `a`), *is* covered by the emitted numeric pattern `r1*a`, and
that pattern even survives the final check — refuting the claim that such
names are excluded from numeric grouping. -/
theorem C8_counterexample :
    ("1".toList, "r10a".toList, "10".toList) ∈
      build_trailing_number_index (allNamesByCat corpusTail)
        ("r".toList, "a".toList) ∧
    "r10a".toList ∈ dcovOf corpusTail "1".toList ∧
    "r1*a".toList ∈ finalPatts corpusTail "1".toList := by decide

/-- C8 (amended): a name is excluded from trailing-numeric grouping exactly
when it contains no decimal digit.  Otherwise its split takes the *last*
maximal digit run as `digits` and the (possibly non-empty) trailing non-digit
run — bracketed indices included — as `suffix`, and the name enters the
index of its category under the key `(head, suffix)`. -/
theorem C8_theorem (nm : Name) :
    (splitTailNum nm = none ↔ ∀ c ∈ nm, c.isDigit = false) ∧
    (∀ h d s, splitTailNum nm = some (h, d, s) →
      nm = h ++ d ++ s ∧ d ≠ [] ∧ (∀ c ∈ d, c.isDigit = true) ∧
        (∀ c ∈ s, c.isDigit = false) ∧
        (∀ c, h.getLast? = some c → c.isDigit = false)) ∧
    (∀ (byCat : Corpus) (c : CatId) (ns : List Name), (c, ns) ∈ byCat → nm ∈ ns →
      ∀ h d s, splitTailNum nm = some (h, d, s) →
        (c, nm, d) ∈ build_trailing_number_index byCat (h, s)) := by
  refine ⟨splitTailNum_none_iff, ?_, ?_⟩
  · intro h d s heq
    exact splitTailNum_some heq
  · intro byCat c ns hns hnm h d s heq
    exact build_trailing_number_index_mem.mpr ⟨ns, hns, hnm, heq⟩

/-- C8 (witness): `r10a` enters the raw corpus index under `(r, a)`. -/
theorem C8_witness :
    ("1".toList, "r10a".toList, "10".toList) ∈
      build_trailing_number_index corpusTail ("r".toList, "a".toList) :=
  ( C8_theorem "r10a".toList).2.2 corpusTail "1".toList
    ["r10a".toList, "r11a".toList] (by decide) (by decide)
    "r".toList "10".toList "a".toList (by decide)

/-! ## Claim C9 -/

/-- C9 (counterexample): the emitter's hierarchical-prefix section is only
stably sorted by length, so its output depends on the iteration order of the
kept-prefix set.  At `corpusTie` the kept set is `{a/, b/}` (two entries of
equal length); the two possible enumerations of that set yield different
emitted line sequences, refuting byte-identical, iteration-order-independent
output. -/
theorem C9_counterexample :
    keptOf corpusTie "1".toList = ["a/".toList, "b/".toList] ∧
    ["b/".toList, "a/".toList].Perm (keptOf corpusTie "1".toList) ∧
    categoryLines ["a/".toList, "b/".toList] [] [] ≠
      categoryLines ["b/".toList, "a/".toList] [] [] := by decide

/-- C9 (amended): the numeric-pattern and leftover sections of a category are
fully lexically sorted and therefore independent of set iteration order; the
hierarchical-prefix section is a stable sort by length only, so across
enumerations it is merely a permutation with the same length profile —
equal-length prefixes keep the (unspecified) set order, which is the only
source of output variation. -/
theorem C9_theorem (ups1 ups2 dps1 dps2 los1 los2 : List Name)
    (hu : ups1.Perm ups2) (hd : dps1.Perm dps2) (hl : los1.Perm los2) :
    sortLex dps1.dedup = sortLex dps2.dedup ∧
    sortLex los1 = sortLex los2 ∧
    (sortByLen ups1).Perm (sortByLen ups2) ∧
    (sortByLen ups1).map List.length = (sortByLen ups2).map List.length ∧
    (categoryLines ups1 dps1 los1).Perm (categoryLines ups2 dps2 los2) := by
  have h1 : sortLex dps1.dedup = sortLex dps2.dedup := sortLex_perm_eq hd.dedup
  have h2 : sortLex los1 = sortLex los2 := sortLex_perm_eq hl
  refine ⟨h1, h2, sortByLen_perm hu, sortByLen_lengths hu, ?_⟩
  unfold categoryLines
  rw [h1, h2]
  exact (((sortByLen_perm hu).map _).append
    (List.Perm.refl (sortLex dps2.dedup))).append (List.Perm.refl (sortLex los2))

/-- C9 (witness): the amended theorem applied to two enumerations of a
two-element set. -/
theorem C9_witness :
    sortLex ["b".toList, "a".toList].dedup = sortLex ["a".toList, "b".toList].dedup :=
  ( C9_theorem ["b".toList, "a".toList] ["a".toList, "b".toList]
    ["b".toList, "a".toList] ["a".toList, "b".toList] [] []
    (by decide) (by decide) (by decide)).1

/-! ## Parser lemmas for claim C10 -/

theorem takeWhile_append_stop {α} {p : α → Bool} {w rest : List α}
    (hw : ∀ c ∈ w, p c = true) (hrest : ∀ c, rest.head? = some c → p c = false) :
    (w ++ rest).takeWhile p = w ∧ (w ++ rest).dropWhile p = rest := by
  induction w with
  | nil =>
    simp only [List.nil_append]
    cases rest with
    | nil => simp
    | cons c t =>
      have hc := hrest c (by simp)
      rw [List.takeWhile_cons, List.dropWhile_cons, hc]
      simp
  | cons a w' ih =>
    have ha : p a = true := hw a (List.mem_cons_self ..)
    obtain ⟨ih1, ih2⟩ := ih (fun c hc => hw c (List.mem_cons_of_mem _ hc))
    constructor
    · rw [List.cons_append, List.takeWhile_cons, ha]
      simp [ih1]
    · rw [List.cons_append, List.dropWhile_cons, ha]
      simp [ih2]

theorem spaces1_eval {w rest : List Char} (hne : w ≠ [])
    (hw : ∀ c ∈ w, pySpace c = true)
    (hrest : ∀ c, rest.head? = some c → pySpace c = false) :
    spaces1 (w ++ rest) = some rest := by
  cases w with
  | nil => exact absurd rfl hne
  | cons a w' =>
    rw [List.cons_append]
    show (if pySpace a = true then some (((w' ++ rest).dropWhile pySpace)) else none) =
      some rest
    rw [if_pos (hw a (List.mem_cons_self ..))]
    rw [(takeWhile_append_stop (fun c hc => hw c (List.mem_cons_of_mem _ hc)) hrest).2]

theorem stripLit_append : ∀ (lit rest : List Char), stripLit lit (lit ++ rest) = some rest := by
  intro lit
  induction lit with
  | nil => intro rest; rfl
  | cons c cs ih =>
    intro rest
    rw [List.cons_append]
    show (if c = c then stripLit cs (cs ++ rest) else none) = some rest
    rw [if_pos rfl]
    exact ih rest

theorem stripLit_some : ∀ {lit s r : List Char}, stripLit lit s = some r → s = lit ++ r := by
  intro lit
  induction lit with
  | nil =>
    intro s r h
    have h' : some s = some r := h
    rw [List.nil_append]
    exact Option.some.inj h'
  | cons c cs ih =>
    intro s r h
    cases s with
    | nil => exact absurd h (by simp [stripLit])
    | cons d ds =>
      have h' : (if c = d then stripLit cs ds else none) = some r := h
      by_cases hcd : c = d
      · rw [if_pos hcd] at h'
        rw [List.cons_append, ← hcd, ih h']
      · rw [if_neg hcd] at h'
        simp at h'

theorem stripLit_quote (X : List Char) : stripLit ['"'] ('"' :: X) = some X := rfl

theorem stripLit_none_of_head {c : Char} {cs s : List Char}
    (hh : ∀ d, s.head? = some d → c ≠ d) : stripLit (c :: cs) s = none := by
  cases s with
  | nil => rfl
  | cons d ds =>
    show (if c = d then stripLit cs ds else none) = none
    exact if_neg (hh d rfl)

theorem head_cond {p : Char → Bool} (x : Char) (hx : p x = false) (xs R : List Char) :
    ∀ c, ((x :: xs) ++ R).head? = some c → p c = false := by
  intro c hc
  rw [List.cons_append, List.head?_cons] at hc
  injection hc with hc
  rw [← hc]
  exact hx

theorem head_cond_cons {p : Char → Bool} (x : Char) (hx : p x = false) (xs : List Char) :
    ∀ c, (x :: xs).head? = some c → p c = false := by
  intro c hc
  rw [List.head?_cons] at hc
  injection hc with hc
  rw [← hc]
  exact hx

theorem head_cond' {p : Char → Bool} {T : List Char} (hT : T ≠ [])
    (hTs : ∀ c ∈ T, p c = false) (R : List Char) :
    ∀ c, (T ++ R).head? = some c → p c = false := by
  cases T with
  | nil => exact absurd rfl hT
  | cons t ts =>
    intro c hc
    rw [List.cons_append, List.head?_cons] at hc
    injection hc with hc
    rw [← hc]
    exact hTs t (List.mem_cons_self ..)

theorem head_cond_mem {p : Char → Bool} {l : List Char} (hl : ∀ c ∈ l, p c = false) :
    ∀ c, l.head? = some c → p c = false := by
  intro c hc
  cases l with
  | nil => simp at hc
  | cons a t =>
    rw [List.head?_cons] at hc
    injection hc with hc
    rw [← hc]
    exact hl a (List.mem_cons_self ..)

theorem pySpace_not_digit {c : Char} (h : pySpace c = true) : c.isDigit = false := by
  unfold pySpace at h
  simp only [Bool.or_eq_true, decide_eq_true_eq] at h
  rcases h with ((((rfl | rfl) | rfl) | rfl) | rfl) | rfl <;> rfl

theorem digit_not_space {c : Char} (h : c.isDigit = true) : pySpace c = false := by
  cases hp : pySpace c with
  | false => rfl
  | true =>
    rw [pySpace_not_digit hp] at h
    exact absurd h (by simp)

theorem isEmpty_false {α} {l : List α} (h : l ≠ []) : l.isEmpty = false := by
  cases l with
  | nil => exact absurd rfl h
  | cons a t => rfl

theorem takeWhile_quote {nmq : List Char} (hnmq : '"' ∉ nmq) (rest : List Char) :
    ((nmq ++ ('"' :: rest)).takeWhile (fun c => c ≠ '"') = nmq) ∧
    ((nmq ++ ('"' :: rest)).dropWhile (fun c => c ≠ '"') = '"' :: rest) := by
  apply takeWhile_append_stop
  · intro c hc
    simp only [decide_eq_true_eq]
    intro heq
    rw [heq] at hc
    exact hnmq hc
  · exact head_cond_cons '"' (by decide) rest

/-- The chain after a failed `Inst` literal: when the tag `T` is a non-empty
whitespace-free literal other than `Inst`, the remainder returned by
`stripLit "Inst"` (if any) starts with a non-space character, so the
following `\s+` fails. -/
theorem inst_tail_fail {T w5 RH s : List Char} (hT : T ≠ [])
    (hTs : ∀ c ∈ T, pySpace c = false) (hTne : T ≠ "Inst".toList)
    (hw5ne : w5 ≠ []) (hw5 : ∀ c ∈ w5, pySpace c = true)
    (heq : T ++ (w5 ++ RH) = "Inst".toList ++ s) : spaces1 s = none := by
  by_cases hlen : 4 ≤ T.length
  · have htake : T.take 4 = "Inst".toList := by
      have h1 : (T ++ (w5 ++ RH)).take 4 = T.take 4 := List.take_append_of_le_length hlen
      have h2 : ("Inst".toList ++ s).take 4 = "Inst".toList := List.take_left' rfl
      rw [heq] at h1
      exact h1.symm.trans h2
    have hTd : T = "Inst".toList ++ T.drop 4 := by
      conv_lhs => rw [← List.take_append_drop 4 T]
      rw [htake]
    have hs : s = T.drop 4 ++ (w5 ++ RH) := by
      have h3 := heq
      rw [hTd, List.append_assoc] at h3
      exact (List.append_cancel_left h3).symm
    have hT4ne : T.drop 4 ≠ [] := by
      intro hnil
      apply hTne
      rw [hTd, hnil, List.append_nil]
    rw [hs]
    cases hd4 : T.drop 4 with
    | nil => exact absurd hd4 hT4ne
    | cons c cs =>
      have hc : pySpace c = false := by
        apply hTs
        refine List.drop_subset 4 T ?_
        rw [hd4]
        exact List.mem_cons_self ..
      rw [List.cons_append]
      show (if pySpace c = true then some (((cs ++ (w5 ++ RH))).dropWhile pySpace)
        else none) = none
      rw [if_neg (by rw [hc]; simp)]
  · exfalso
    have hT1 : 0 < T.length := List.length_pos.mpr hT
    have hdrop := congrArg (List.drop T.length) heq
    rw [List.drop_left] at hdrop
    rw [List.drop_append_of_le_length (by
      have : "Inst".toList.length = 4 := rfl
      omega)] at hdrop
    have hIne : "Inst".toList.drop T.length ≠ [] := by
      intro hnil
      have := congrArg List.length hnil
      simp only [List.length_drop, List.length_nil] at this
      have h4 : "Inst".toList.length = 4 := rfl
      omega
    cases hw5c : w5 with
    | nil => exact hw5ne hw5c
    | cons c5 w5' =>
      cases hIc : "Inst".toList.drop T.length with
      | nil => exact hIne hIc
      | cons i0 irest =>
        rw [hw5c, hIc] at hdrop
        have hh := congrArg List.head? hdrop
        rw [List.cons_append, List.cons_append, List.head?_cons, List.head?_cons] at hh
        injection hh with hh
        have hi0 : i0 ∈ "Inst".toList := by
          refine List.drop_subset T.length _ ?_
          rw [hIc]
          exact List.mem_cons_self ..
        have hi0s : pySpace i0 = false := by
          have hall : ∀ c ∈ "Inst".toList, pySpace c = false := by decide
          exact hall i0 hi0
        have hc5 : pySpace c5 = true := hw5 c5 (by rw [hw5c]; exact List.mem_cons_self ..)
        rw [← hh] at hi0s
        rw [hc5] at hi0s
        exact absurd hi0s (by simp)

theorem matchCat_no_hash {line : List Char}
    (h : ∀ c, (line.dropWhile pySpace).head? = some c → c ≠ '#') :
    matchCat line = none := by
  unfold matchCat
  cases hd : line.dropWhile pySpace with
  | nil => rfl
  | cons d ds =>
    have hne : ('#' : Char) ≠ d := by
      intro he
      exact h d (by rw [hd, List.head?_cons]) he.symm
    rw [stripLit_none_of_head (fun e he => by
      rw [List.head?_cons] at he
      injection he with he
      rw [← he]
      exact hne)]
    rfl

theorem matchCat_selLine (w0 w1 w2 w3 w4 w5 w6 w7 nmq T n : List Char)
    (h0 : ∀ c ∈ w0, pySpace c = true) :
    matchCat (selLine w0 w1 w2 w3 w4 w5 w6 w7 nmq T n) = none := by
  unfold selLine
  set tR := w1 ++ ("-name".toList ++ (w2 ++ ('"' :: (nmq ++ ('"' :: (w3 ++
    ("-type".toList ++ (w4 ++ (T ++ (w5 ++ ("-highlight".toList ++
      (w6 ++ (n ++ w7))))))))))))) with htR
  refine matchCat_no_hash ?_
  have e0 : ((w0 ++ ("select".toList ++ tR)).dropWhile pySpace) = "select".toList ++ tR :=
    (takeWhile_append_stop h0 (head_cond 's' (by decide) "elect".toList tR)).2
  rw [e0]
  intro c hc
  have hcs : c = 's' := by
    have hsome : ("select".toList ++ tR).head? = some 's' := rfl
    rw [hsome] at hc
    injection hc with hc
    exact hc.symm
  rw [hcs]
  decide

theorem matchSel_selLine (w0 w1 w2 w3 w4 w5 w6 w7 nmq T n : List Char)
    (h0 : ∀ c ∈ w0, pySpace c = true)
    (h1 : w1 ≠ []) (h1s : ∀ c ∈ w1, pySpace c = true)
    (h2 : w2 ≠ []) (h2s : ∀ c ∈ w2, pySpace c = true)
    (h3 : w3 ≠ []) (h3s : ∀ c ∈ w3, pySpace c = true)
    (h4 : w4 ≠ []) (h4s : ∀ c ∈ w4, pySpace c = true)
    (h5 : w5 ≠ []) (h5s : ∀ c ∈ w5, pySpace c = true)
    (h6 : w6 ≠ []) (h6s : ∀ c ∈ w6, pySpace c = true)
    (h7 : ∀ c ∈ w7, pySpace c = true)
    (hnm : nmq ≠ []) (hnmq : '"' ∉ nmq)
    (hT : T ≠ []) (hTs : ∀ c ∈ T, pySpace c = false)
    (hn : n ≠ []) (hnd : ∀ c ∈ n, c.isDigit = true) :
    matchSel (selLine w0 w1 w2 w3 w4 w5 w6 w7 nmq T n) =
      if T = "Inst".toList then some (nmq, n) else none := by
  unfold matchSel selLine
  set t1 := n ++ w7 with ht1
  set t2 := w6 ++ t1 with ht2
  set t3 := "-highlight".toList ++ t2 with ht3
  set t4 := w5 ++ t3 with ht4
  set t5 := T ++ t4 with ht5
  set t6 := w4 ++ t5 with ht6
  set t7 := "-type".toList ++ t6 with ht7
  set t8 := w3 ++ t7 with ht8
  set t9 := ('"' :: t8 : List Char) with ht9
  set t10 := nmq ++ t9 with ht10
  set t11 := ('"' :: t10 : List Char) with ht11
  set t12 := w2 ++ t11 with ht12
  set t13 := "-name".toList ++ t12 with ht13
  set t14 := w1 ++ t13 with ht14
  set t15 := "select".toList ++ t14 with ht15
  have hff : ¬(false = true) := by simp
  have e0 : (w0 ++ t15).dropWhile pySpace = t15 := by
    rw [ht15]
    exact (takeWhile_append_stop h0 (head_cond 's' (by decide) "elect".toList t14)).2
  rw [e0, ht15, stripLit_append]
  simp only [Option.bind_eq_bind, Option.some_bind]
  have s13h : ∀ c, t13.head? = some c → pySpace c = false := by
    rw [ht13]
    exact head_cond '-' (by decide) "name".toList t12
  rw [ht14, spaces1_eval h1 h1s s13h]
  simp only [Option.bind_eq_bind, Option.some_bind]
  rw [ht13, stripLit_append]
  simp only [Option.bind_eq_bind, Option.some_bind]
  have s11h : ∀ c, t11.head? = some c → pySpace c = false := by
    rw [ht11]
    exact head_cond_cons '"' (by decide) t10
  rw [ht12, spaces1_eval h2 h2s s11h]
  simp only [Option.bind_eq_bind, Option.some_bind]
  rw [ht11, stripLit_quote]
  simp only [Option.bind_eq_bind, Option.some_bind]
  rw [ht10, ht9, (takeWhile_quote hnmq t8).1, (takeWhile_quote hnmq t8).2]
  rw [isEmpty_false hnm, if_neg hff, stripLit_quote]
  simp only [Option.bind_eq_bind, Option.some_bind]
  have s7h : ∀ c, t7.head? = some c → pySpace c = false := by
    rw [ht7]
    exact head_cond '-' (by decide) "type".toList t6
  rw [ht8, spaces1_eval h3 h3s s7h]
  simp only [Option.bind_eq_bind, Option.some_bind]
  rw [ht7, stripLit_append]
  simp only [Option.bind_eq_bind, Option.some_bind]
  have s5h : ∀ c, t5.head? = some c → pySpace c = false := by
    rw [ht5]
    exact head_cond' hT hTs t4
  rw [ht6, spaces1_eval h4 h4s s5h]
  simp only [Option.bind_eq_bind, Option.some_bind]
  rw [ht5]
  by_cases hti : T = "Inst".toList
  · rw [hti, stripLit_append]
    simp only [Option.bind_eq_bind, Option.some_bind]
    have s3h : ∀ c, t3.head? = some c → pySpace c = false := by
      rw [ht3]
      exact head_cond '-' (by decide) "highlight".toList t2
    rw [ht4, spaces1_eval h5 h5s s3h]
    simp only [Option.bind_eq_bind, Option.some_bind]
    rw [ht3, stripLit_append]
    simp only [Option.bind_eq_bind, Option.some_bind]
    have s1h : ∀ c, t1.head? = some c → pySpace c = false := by
      rw [ht1]
      exact head_cond' hn (fun c hc => digit_not_space (hnd c hc)) w7
    rw [ht2, spaces1_eval h6 h6s s1h]
    simp only [Option.bind_eq_bind, Option.some_bind]
    have hdig := takeWhile_append_stop hnd
      (head_cond_mem (fun c hc => pySpace_not_digit (h7 c hc)))
    rw [ht1, hdig.1, hdig.2, isEmpty_false hn, if_neg hff]
    rw [show w7.dropWhile pySpace = [] from
      List.dropWhile_eq_nil_iff.mpr (fun x hx => h7 x hx)]
    simp
  · rw [if_neg hti]
    cases hres : stripLit "Inst".toList (T ++ t4) with
    | none =>
      simp only [Option.bind_eq_bind, Option.none_bind]
    | some s =>
      simp only [Option.bind_eq_bind, Option.some_bind]
      have heq : T ++ (w5 ++ t3) = "Inst".toList ++ s := by
        have := stripLit_some hres
        rw [ht4] at this
        exact this
      rw [inst_tail_fail hT hTs hti h5 h5s heq]
      simp only [Option.bind_eq_bind, Option.none_bind]

theorem parse_line_drop {st : PState} {line : List Char}
    (hcat : matchCat line = none) (hsel : matchSel line = none) :
    (parse_line st line).cats = st.cats ∧
      (st.order ≠ [] → parse_line st line = st) := by
  have h : parse_line st line =
      (if st.order.isEmpty &&
          (((line.dropWhile pySpace).head?).isEqSome '#' || line.all pySpace) then
        { st with headerLines := st.headerLines ++ [stripNl line] }
      else st) := by
    unfold parse_line
    rw [hcat, hsel]
  constructor
  · rw [h]
    split
    · rfl
    · rfl
  · intro ho
    rw [h, isEmpty_false ho]
    rfl

/-- C10: a selection-shaped line whose `-type` tag is any whitespace-free
literal `T` is accepted by `SEL_RE` (yielding the quoted name and the
highlight digits) exactly when `T` is the literal `Inst`; such a line never
matches `CAT_RE`; and when `T ≠ Inst` the parser leaves the category map
unchanged and, once at least one category header has been seen, leaves the
whole state unchanged — the line is silently dropped. -/
theorem C10_theorem (w0 w1 w2 w3 w4 w5 w6 w7 nmq T n : List Char)
    (h0 : ∀ c ∈ w0, pySpace c = true)
    (h1 : w1 ≠ []) (h1s : ∀ c ∈ w1, pySpace c = true)
    (h2 : w2 ≠ []) (h2s : ∀ c ∈ w2, pySpace c = true)
    (h3 : w3 ≠ []) (h3s : ∀ c ∈ w3, pySpace c = true)
    (h4 : w4 ≠ []) (h4s : ∀ c ∈ w4, pySpace c = true)
    (h5 : w5 ≠ []) (h5s : ∀ c ∈ w5, pySpace c = true)
    (h6 : w6 ≠ []) (h6s : ∀ c ∈ w6, pySpace c = true)
    (h7 : ∀ c ∈ w7, pySpace c = true)
    (hnm : nmq ≠ []) (hnmq : '"' ∉ nmq)
    (hT : T ≠ []) (hTs : ∀ c ∈ T, pySpace c = false)
    (hn : n ≠ []) (hnd : ∀ c ∈ n, c.isDigit = true) :
    (matchSel (selLine w0 w1 w2 w3 w4 w5 w6 w7 nmq T n) =
      if T = "Inst".toList then some (nmq, n) else none) ∧
    matchCat (selLine w0 w1 w2 w3 w4 w5 w6 w7 nmq T n) = none ∧
    (T ≠ "Inst".toList → ∀ st : PState,
      (parse_line st (selLine w0 w1 w2 w3 w4 w5 w6 w7 nmq T n)).cats = st.cats ∧
      (st.order ≠ [] → parse_line st (selLine w0 w1 w2 w3 w4 w5 w6 w7 nmq T n) = st)) := by
  have hsel := matchSel_selLine w0 w1 w2 w3 w4 w5 w6 w7 nmq T n h0 h1 h1s h2 h2s h3 h3s
    h4 h4s h5 h5s h6 h6s h7 hnm hnmq hT hTs hn hnd
  have hcat := matchCat_selLine w0 w1 w2 w3 w4 w5 w6 w7 nmq T n h0
  refine ⟨hsel, hcat, ?_⟩
  intro hti st
  have hsel' : matchSel (selLine w0 w1 w2 w3 w4 w5 w6 w7 nmq T n) = none := by
    rw [hsel, if_neg hti]
  exact parse_line_drop hcat hsel'

theorem C10_witness :
    (matchSel (selLine [' '] [' '] [' '] [' '] [' '] [' '] [' '] [' ']
        "a".toList "Inst".toList "3".toList) = some ("a".toList, "3".toList)) ∧
    (matchSel (selLine [' '] [' '] [' '] [' '] [' '] [' '] [' '] [' ']
        "a".toList "Net".toList "3".toList) = none) ∧
    (matchCat (selLine [' '] [' '] [' '] [' '] [' '] [' '] [' '] [' ']
        "a".toList "Net".toList "3".toList) = none) ∧
    (parse_line ⟨["1".toList], [("1".toList, ⟨"2".toList, []⟩)], some "1".toList, []⟩
        (selLine [' '] [' '] [' '] [' '] [' '] [' '] [' '] [' ']
          "a".toList "Net".toList "3".toList) =
      ⟨["1".toList], [("1".toList, ⟨"2".toList, []⟩)], some "1".toList, []⟩) := by
  have hI := C10_theorem [' '] [' '] [' '] [' '] [' '] [' '] [' '] [' ']
    "a".toList "Inst".toList "3".toList
    (by decide) (by decide) (by decide) (by decide) (by decide) (by decide) (by decide)
    (by decide) (by decide) (by decide) (by decide) (by decide) (by decide) (by decide)
    (by decide) (by decide) (by decide) (by decide) (by decide) (by decide)
  have hN := C10_theorem [' '] [' '] [' '] [' '] [' '] [' '] [' '] [' ']
    "a".toList "Net".toList "3".toList
    (by decide) (by decide) (by decide) (by decide) (by decide) (by decide) (by decide)
    (by decide) (by decide) (by decide) (by decide) (by decide) (by decide) (by decide)
    (by decide) (by decide) (by decide) (by decide) (by decide) (by decide)
  refine ⟨?_, ?_, hN.2.1, ?_⟩
  · rw [hI.1]
    decide
  · rw [hN.1]
    decide
  · exact (hN.2.2 (by decide) _).2 (by decide)

end TclComp
